import Mathlib

/-!
Shallow embedding of the CardDetectorV2 image-analysis pipeline of the
pokemon-card-analyzer repository: border-color detection, Gaussian
smoothing, Sobel gradients, card-edge scanning, corner refinement,
homography estimation and application, the perspective-correction skew
check, and sub-pixel edge fitting, together with theorems settling the
frozen claims about that code.

JavaScript numbers are modelled as exact rationals, and as reals where
the source computes square roots or arctangents.  Typed arrays
(Float32Array, Float64Array, Uint8ClampedArray) are modelled as total
functions from integer indices to values; a fresh typed array is
zero-filled, so positions the code never writes read as 0.  Loops with
an exit test against a fractional bound are modelled as folds over the
exact list of index values the loop visits.
-/

set_option maxRecDepth 20000

attribute [local semireducible] Rat.add Rat.mul Rat.sub Rat.inv Rat.ofScientific

namespace CardV2

/-- The five border-color categories of the detector. -/
inductive BorderColor where
  | black
  | white
  | yellow
  | silver
  | unknown
deriving DecidableEq, Repr

/-- A point in image space, over the number type the computation runs in. -/
structure Point (K : Type*) where
  x : K
  y : K
deriving DecidableEq, Repr

section OrderHelpers

variable {K : Type*} [LinearOrder K]

/-- Source function clamp: v below lo gives lo, above hi gives hi, else v. -/
def clamp (v lo hi : K) : K :=
  if v < lo then lo else if v > hi then hi else v

theorem clamp_eq_max_min (v lo hi : K) (h : lo ≤ hi) :
    clamp v lo hi = max lo (min v hi) := by
  unfold clamp
  rcases lt_or_le v lo with h1 | h1
  · rw [if_pos h1, min_eq_left (le_trans h1.le h), max_eq_left h1.le]
  · rw [if_neg (not_lt.mpr h1)]
    rcases le_or_lt v hi with h2 | h2
    · rw [if_neg (not_lt.mpr h2), min_eq_left h2, max_eq_right h1]
    · rw [if_pos h2, min_eq_right h2.le, max_eq_right h]

theorem clamp_le (v lo hi : K) (h : lo ≤ hi) : clamp v lo hi ≤ hi := by
  rw [clamp_eq_max_min v lo hi h]
  exact max_le h (min_le_right _ _)

theorem le_clamp (v lo hi : K) (h : lo ≤ hi) : lo ≤ clamp v lo hi := by
  rw [clamp_eq_max_min v lo hi h]
  exact le_max_left _ _

theorem clamp_eq_self (v lo hi : K) (h1 : lo ≤ v) (h2 : v ≤ hi) :
    clamp v lo hi = v := by
  unfold clamp
  rw [if_neg (not_lt.mpr h1), if_neg (not_lt.mpr h2)]

end OrderHelpers

section Helpers

variable {K : Type*} [LinearOrderedField K]

/-- Insert into an ascending list, keeping it ascending. -/
def insertAsc (a : K) : List K → List K
  | [] => [a]
  | b :: l => if a ≤ b then a :: b :: l else b :: insertAsc a l

/-- Ascending sort by insertion.  Stands for the source sorts with the
numeric comparator (a, b) => a - b, whose result is determined by the
multiset of values alone. -/
def sortAsc (l : List K) : List K := l.foldr insertAsc []

/-- Source function median: sort ascending, take the middle element, or
the mean of the two middle elements for even length; 0 for an empty list. -/
def median (l : List K) : K :=
  if l = [] then 0 else
  let sorted := sortAsc l
  let mid := l.length / 2
  if l.length % 2 = 0 then (sorted.getD (mid - 1) 0 + sorted.getD mid 0) / 2
  else sorted.getD mid 0

theorem mem_insertAsc {a x : K} {l : List K} (h : x ∈ insertAsc a l) :
    x = a ∨ x ∈ l := by
  induction l with
  | nil => simpa [insertAsc] using h
  | cons b t ih =>
    by_cases hab : a ≤ b
    · simpa [insertAsc, hab] using h
    · simp only [insertAsc, hab, if_false, List.mem_cons] at h
      rcases h with h | h
      · exact Or.inr (by simp [h])
      · rcases ih h with h | h
        · exact Or.inl h
        · exact Or.inr (by simp [h])

theorem mem_sortAsc {x : K} {l : List K} (h : x ∈ sortAsc l) : x ∈ l := by
  induction l with
  | nil => simp [sortAsc] at h
  | cons b t ih =>
    simp only [sortAsc, List.foldr_cons] at h
    rcases mem_insertAsc h with h | h
    · simp [h]
    · exact List.mem_cons_of_mem _ (ih h)

theorem length_insertAsc (a : K) (l : List K) :
    (insertAsc a l).length = l.length + 1 := by
  induction l with
  | nil => simp [insertAsc]
  | cons b t ih =>
    by_cases hab : a ≤ b
    · simp [insertAsc, hab]
    · simp [insertAsc, hab, ih]

theorem length_sortAsc (l : List K) : (sortAsc l).length = l.length := by
  induction l with
  | nil => simp [sortAsc]
  | cons b t ih =>
    simp [sortAsc, length_insertAsc] at ih ⊢
    simpa [length_insertAsc] using ih

theorem sortAsc_getD_mem {l : List K} {i : ℕ} (h : i < l.length) :
    (sortAsc l).getD i 0 ∈ l := by
  have hl : i < (sortAsc l).length := by rwa [length_sortAsc]
  rw [List.getD_eq_getElem _ 0 hl]
  exact mem_sortAsc (List.getElem_mem hl)

theorem le_median {l : List K} {a : K} (h0 : l ≠ []) (h : ∀ x ∈ l, a ≤ x) :
    a ≤ median l := by
  have hlen : 0 < l.length := List.length_pos.mpr h0
  unfold median
  rw [if_neg h0]
  have hmid : l.length / 2 < l.length := Nat.div_lt_self hlen (by norm_num)
  have h2 : a ≤ (sortAsc l).getD (l.length / 2) 0 := h _ (sortAsc_getD_mem hmid)
  by_cases he : l.length % 2 = 0
  · have hmid1 : l.length / 2 - 1 < l.length := lt_of_le_of_lt (Nat.sub_le _ _) hmid
    have h1 : a ≤ (sortAsc l).getD (l.length / 2 - 1) 0 := h _ (sortAsc_getD_mem hmid1)
    simp only [he, if_true]
    linarith
  · simpa [he] using h2

theorem lt_median {l : List K} {a : K} (h0 : l ≠ []) (h : ∀ x ∈ l, a < x) :
    a < median l := by
  have hlen : 0 < l.length := List.length_pos.mpr h0
  unfold median
  rw [if_neg h0]
  have hmid : l.length / 2 < l.length := Nat.div_lt_self hlen (by norm_num)
  have h2 : a < (sortAsc l).getD (l.length / 2) 0 := h _ (sortAsc_getD_mem hmid)
  by_cases he : l.length % 2 = 0
  · have hmid1 : l.length / 2 - 1 < l.length := lt_of_le_of_lt (Nat.sub_le _ _) hmid
    have h1 : a < (sortAsc l).getD (l.length / 2 - 1) 0 := h _ (sortAsc_getD_mem hmid1)
    simp only [he, if_true]
    linarith
  · simpa [he] using h2

theorem median_lt {l : List K} {b : K} (h0 : l ≠ []) (h : ∀ x ∈ l, x < b) :
    median l < b := by
  have hlen : 0 < l.length := List.length_pos.mpr h0
  unfold median
  rw [if_neg h0]
  have hmid : l.length / 2 < l.length := Nat.div_lt_self hlen (by norm_num)
  have h2 : (sortAsc l).getD (l.length / 2) 0 < b := h _ (sortAsc_getD_mem hmid)
  by_cases he : l.length % 2 = 0
  · have hmid1 : l.length / 2 - 1 < l.length := lt_of_le_of_lt (Nat.sub_le _ _) hmid
    have h1 : (sortAsc l).getD (l.length / 2 - 1) 0 < b := h _ (sortAsc_getD_mem hmid1)
    simp only [he, if_true]
    linarith
  · simpa [he] using h2

theorem median_le {l : List K} {b : K} (h0 : l ≠ []) (h : ∀ x ∈ l, x ≤ b) :
    median l ≤ b := by
  have hlen : 0 < l.length := List.length_pos.mpr h0
  unfold median
  rw [if_neg h0]
  have hmid : l.length / 2 < l.length := Nat.div_lt_self hlen (by norm_num)
  have h2 : (sortAsc l).getD (l.length / 2) 0 ≤ b := h _ (sortAsc_getD_mem hmid)
  by_cases he : l.length % 2 = 0
  · have hmid1 : l.length / 2 - 1 < l.length := lt_of_le_of_lt (Nat.sub_le _ _) hmid
    have h1 : (sortAsc l).getD (l.length / 2 - 1) 0 ≤ b := h _ (sortAsc_getD_mem hmid1)
    simp only [he, if_true]
    linarith
  · simpa [he] using h2

end Helpers

/-- The red, green, blue channels of one pixel. -/
structure RGB where
  r : ℚ
  g : ℚ
  b : ℚ
deriving DecidableEq, Repr

/-- Source function getPixel: read the three channels of pixel (x, y) from
the flat RGBA byte buffer of a w pixels wide image. -/
def getPixel (data : ℤ → ℚ) (w x y : ℤ) : RGB :=
  { r := data ((y * w + x) * 4)
    g := data ((y * w + x) * 4 + 1)
    b := data ((y * w + x) * 4 + 2) }

/-- Source function luminance. -/
def luminance (r g b : ℚ) : ℚ := 0.299 * r + 0.587 * g + 0.114 * b

/-- Source function classifyPixelColor: the thresholded yellow, silver,
white, black rule, in that order, with unknown as the fallthrough. -/
def classifyPixelColor (r g b : ℚ) : BorderColor :=
  let lum := luminance r g b
  if r > 170 ∧ g > 150 ∧ b < 120 ∧ r > b * 1.5 ∧ g > b * 1.3 then .yellow
  else
    let maxC := max r (max g b)
    let minC := min r (min g b)
    if maxC - minC < 35 ∧ lum > 120 ∧ lum < 210 then .silver
    else if lum > 210 ∧ maxC - minC < 50 then .white
    else if lum < 60 then .black
    else .unknown

/-- A decoded raster: width, height, and the flat RGBA byte buffer. -/
structure ImageData where
  width : ℕ
  height : ℕ
  data : ℤ → ℚ

/-- Source function toGrayscale: gray i = luminance of pixel i, over the
w * h pixels of the image. -/
def toGrayscale (img : ImageData) : ℤ → ℚ := fun i =>
  if 0 ≤ i ∧ i < (img.width : ℤ) * (img.height : ℤ) then
    luminance (img.data (i * 4)) (img.data (i * 4 + 1)) (img.data (i * 4 + 2))
  else 0

/-- The 3x3 kernel sum the blur loop accumulates at (x, y): the nine reads
gray[(y+ky)*w + (x+kx)] * k[(ky+1)*3 + (kx+1)] with k = [1,2,1,2,4,2,1,2,1],
in the order the loop visits them. -/
def gauss3x3At (gray : ℤ → ℚ) (w x y : ℤ) : ℚ :=
  gray ((y - 1) * w + (x - 1)) * 1 + gray ((y - 1) * w + x) * 2 +
    gray ((y - 1) * w + (x + 1)) * 1 +
  gray (y * w + (x - 1)) * 2 + gray (y * w + x) * 4 + gray (y * w + (x + 1)) * 2 +
  gray ((y + 1) * w + (x - 1)) * 1 + gray ((y + 1) * w + x) * 2 +
    gray ((y + 1) * w + (x + 1)) * 1

/-- Source function gaussianBlur3x3: out is a fresh zero-filled w*h array;
for y in [1, h-2] and x in [1, w-2] the pixel y*w+x is set to the kernel
sum over 16; every other position keeps the initial 0. -/
def gaussianBlur3x3 (gray : ℤ → ℚ) (w h : ℤ) : ℤ → ℚ := fun idx =>
  if 0 ≤ idx ∧ idx < w * h then
    let y := idx / w
    let x := idx % w
    if 1 ≤ y ∧ y < h - 1 ∧ 1 ≤ x ∧ x < w - 1 then gauss3x3At gray w x y / 16
    else 0
  else 0

/-- The kernel convolution [1,2,1;2,4,2;1,2,1]/16 at (x, y), written as the
specification states it: matrix rows of weights against the 3x3
neighbourhood, divided by 16. -/
def gauss3x3SpecConv (gray : ℤ → ℚ) (w x y : ℤ) : ℚ :=
  (1 * gray ((y - 1) * w + (x - 1)) + 2 * gray ((y - 1) * w + x) +
      1 * gray ((y - 1) * w + (x + 1)) +
    2 * gray (y * w + (x - 1)) + 4 * gray (y * w + x) + 2 * gray (y * w + (x + 1)) +
    1 * gray ((y + 1) * w + (x - 1)) + 2 * gray ((y + 1) * w + x) +
      1 * gray ((y + 1) * w + (x + 1))) / 16

theorem index_recover_y (w x y : ℤ) (hx0 : 0 ≤ x) (hxw : x < w) :
    (y * w + x) / w = y := by
  have hw : w ≠ 0 := by omega
  rw [add_comm, mul_comm y w, Int.add_mul_ediv_left x y hw,
    Int.ediv_eq_zero_of_lt hx0 hxw, zero_add]

theorem index_recover_x (w x y : ℤ) (hx0 : 0 ≤ x) (hxw : x < w) :
    (y * w + x) % w = x := by
  have h : (y * w + x) % w = x % w := by
    rw [add_comm, mul_comm y w, Int.add_mul_emod_self_left]
  rw [h, Int.emod_eq_of_lt hx0 hxw]

/-- Claim C7, amended: at every interior pixel the smoothed value is the
[1,2,1;2,4,2;1,2,1]/16 kernel convolution of the input, and at every pixel
of the outermost border ring the output is 0, the fill value of the fresh
output array, not the input grayscale value. -/
theorem gaussianBlur3x3_interior_border (gray : ℤ → ℚ) (w h x y : ℤ) :
    (1 ≤ x → x ≤ w - 2 → 1 ≤ y → y ≤ h - 2 →
      gaussianBlur3x3 gray w h (y * w + x) = gauss3x3SpecConv gray w x y) ∧
    (0 ≤ x → x < w → 0 ≤ y → y < h →
      (x = 0 ∨ x = w - 1 ∨ y = 0 ∨ y = h - 1) →
      gaussianBlur3x3 gray w h (y * w + x) = 0) := by
  constructor
  · intro hx1 hx2 hy1 hy2
    have hx0 : 0 ≤ x := by omega
    have hxw : x < w := by omega
    have hyw : y * w ≤ (h - 2) * w :=
      mul_le_mul_of_nonneg_right hy2 (by omega)
    have hidx0 : 0 ≤ y * w + x := by
      have : 0 ≤ y * w := mul_nonneg (by omega) (by omega)
      omega
    have hidx1 : y * w + x < w * h := by nlinarith
    unfold gaussianBlur3x3
    rw [if_pos ⟨hidx0, hidx1⟩]
    simp only [index_recover_y w x y hx0 hxw, index_recover_x w x y hx0 hxw]
    rw [if_pos (by omega)]
    unfold gauss3x3At gauss3x3SpecConv
    ring
  · intro hx0 hxw hy0 hyh hborder
    have hyw : y * w ≤ (h - 1) * w :=
      mul_le_mul_of_nonneg_right (by omega) (by omega)
    have hidx0 : 0 ≤ y * w + x := by
      have : 0 ≤ y * w := mul_nonneg (by omega) (by omega)
      omega
    have hidx1 : y * w + x < w * h := by nlinarith
    unfold gaussianBlur3x3
    rw [if_pos ⟨hidx0, hidx1⟩]
    simp only [index_recover_y w x y hx0 hxw, index_recover_x w x y hx0 hxw]
    rw [if_neg (by omega)]

/-- Witness for claim C7 at a concrete field: the center pixel of a 3x3
image is convolved, the pixel at (2, 0) on the border ring is zeroed. -/
theorem gaussianBlur3x3_interior_border_witness :
    gaussianBlur3x3 (fun i => (i : ℚ)) 3 3 4 = gauss3x3SpecConv (fun i => (i : ℚ)) 3 1 1 ∧
    gaussianBlur3x3 (fun i => (i : ℚ)) 3 3 2 = 0 :=
  ⟨(gaussianBlur3x3_interior_border (fun i => (i : ℚ)) 3 3 1 1).1
      (by decide) (by decide) (by decide) (by decide),
    (gaussianBlur3x3_interior_border (fun i => (i : ℚ)) 3 3 2 0).2
      (by decide) (by decide) (by decide) (by decide) (Or.inr (Or.inl (by decide)))⟩

/-- Counterexample to claim C7 as stated: on the all-5 grayscale field of a
3x3 image, the border pixel at index 0 comes out 0, not the input value 5,
so the border ring is zero-filled rather than passed through unfiltered. -/
theorem gaussianBlur3x3_border_ne_input :
    gaussianBlur3x3 (fun _ => (5 : ℚ)) 3 3 0 ≠ (fun _ => (5 : ℚ)) 0 := by
  decide

-- ──────────────────────────────────────────────────────────────────────
-- Sub-pixel edge fitting
-- ──────────────────────────────────────────────────────────────────────

/-- The body of the gradient scan loop of subpixelEdgePosition: compare the
absolute central difference at i against the running maximum, keeping the
first index attaining the maximum (strict comparison). -/
def maxGradStep (strip : List ℚ) (s : ℚ × ℕ) (i : ℕ) : ℚ × ℕ :=
  let grad := |strip.getD (i + 1) 0 - strip.getD (i - 1) 0|
  if grad > s.1 then (grad, i) else s

/-- The gradient scan of subpixelEdgePosition: fold over i in
[1, strip.length - 2] starting from maxGrad = 0, maxIdx = 0. -/
def maxGradScan (strip : List ℚ) : ℚ × ℕ :=
  (List.range' 1 (strip.length - 2)).foldl (maxGradStep strip) (0, 0)

/-- Source function subpixelEdgePosition: locate the strongest absolute
central difference, then refine by parabolic interpolation of the two
one-sided differences, clamped to half a pixel. -/
def subpixelEdgePosition (strip : List ℚ) : ℚ :=
  if strip.length < 3 then (strip.length : ℚ) / 2
  else
    let maxIdx := (maxGradScan strip).2
    if maxIdx = 0 ∨ strip.length - 1 ≤ maxIdx then (maxIdx : ℚ)
    else
      let gPrev := |strip.getD maxIdx 0 - strip.getD (maxIdx - 1) 0|
      let gNext := |strip.getD (maxIdx + 1) 0 - strip.getD maxIdx 0|
      let denom := gPrev + gNext
      if denom < 0.01 then (maxIdx : ℚ)
      else (maxIdx : ℚ) + clamp ((gNext - gPrev) / (2 * denom)) (-0.5) 0.5

theorem maxGradScan_snd_cases (strip : List ℚ) :
    (maxGradScan strip).2 = 0 ∨
      (1 ≤ (maxGradScan strip).2 ∧ (maxGradScan strip).2 ≤ strip.length - 2) := by
  unfold maxGradScan
  refine List.foldlRecOn
    (motive := fun s : ℚ × ℕ => s.2 = 0 ∨ (1 ≤ s.2 ∧ s.2 ≤ strip.length - 2))
    _ _ _ (Or.inl rfl) ?_
  intro s hs i hi
  have hi' : 1 ≤ i ∧ i < 1 + (strip.length - 2) := List.mem_range'_1.mp hi
  simp only [maxGradStep]
  split
  · exact Or.inr ⟨hi'.1, by omega⟩
  · exact hs

theorem foldl_maxGradStep_id (strip : List ℚ) (l : List ℕ) (s : ℚ × ℕ)
    (h : ∀ i ∈ l, ¬ (|strip.getD (i + 1) 0 - strip.getD (i - 1) 0| > s.1)) :
    l.foldl (maxGradStep strip) s = s := by
  induction l with
  | nil => rfl
  | cons a t ih =>
    have ha : maxGradStep strip s a = s := by
      unfold maxGradStep
      rw [if_neg (h a (List.mem_cons_self a t))]
    rw [List.foldl_cons, ha]
    exact ih fun i hi => h i (List.mem_cons_of_mem a hi)

/-- Claim C9: for strips of length at least 3 the returned position is
within half a pixel of the scan maximum index, hence within
[0, strip.length - 1]; and the parabolic offset already lies within
[-0.5, 0.5] for nonnegative one-sided gradients of positive sum, so the
clamp leaves it unchanged. -/
theorem subpixelEdgePosition_near_maxIdx (strip : List ℚ)
    (h3 : 3 ≤ strip.length) :
    |subpixelEdgePosition strip - ((maxGradScan strip).2 : ℚ)| ≤ 1 / 2 ∧
    0 ≤ subpixelEdgePosition strip ∧
    subpixelEdgePosition strip ≤ (strip.length : ℚ) - 1 ∧
    (∀ gPrev gNext : ℚ, 0 ≤ gPrev → 0 ≤ gNext → 0 < gPrev + gNext →
      clamp ((gNext - gPrev) / (2 * (gPrev + gNext))) (-0.5) 0.5 =
        (gNext - gPrev) / (2 * (gPrev + gNext))) := by
  have hm := maxGradScan_snd_cases strip
  have hlen1 : (1 : ℚ) ≤ (strip.length : ℚ) - 1 := by
    have : (3 : ℚ) ≤ (strip.length : ℚ) := by exact_mod_cast h3
    linarith
  have hclampid : ∀ gPrev gNext : ℚ, 0 ≤ gPrev → 0 ≤ gNext → 0 < gPrev + gNext →
      clamp ((gNext - gPrev) / (2 * (gPrev + gNext))) (-0.5) 0.5 =
        (gNext - gPrev) / (2 * (gPrev + gNext)) := by
    intro gPrev gNext hp hn hs
    have h2s : 0 < 2 * (gPrev + gNext) := by linarith
    have hlo : (-0.5 : ℚ) ≤ (gNext - gPrev) / (2 * (gPrev + gNext)) := by
      rw [le_div_iff₀ h2s]
      norm_num
      linarith
    have hhi : (gNext - gPrev) / (2 * (gPrev + gNext)) ≤ (0.5 : ℚ) := by
      rw [div_le_iff₀ h2s]
      norm_num
      linarith
    unfold clamp
    rw [if_neg (not_lt.mpr hlo), if_neg (not_lt.mpr hhi)]
  have main : |subpixelEdgePosition strip - ((maxGradScan strip).2 : ℚ)| ≤ 1 / 2 ∧
      0 ≤ subpixelEdgePosition strip ∧
      subpixelEdgePosition strip ≤ (strip.length : ℚ) - 1 := by
    by_cases h0 : (maxGradScan strip).2 = 0 ∨
        strip.length - 1 ≤ (maxGradScan strip).2
    · have hz : (maxGradScan strip).2 = 0 := by
        rcases hm with hz | ⟨h1, h2⟩
        · exact hz
        · rcases h0 with hz | hge
          · exact hz
          · omega
      have heq : subpixelEdgePosition strip = ((maxGradScan strip).2 : ℚ) := by
        simp only [subpixelEdgePosition]
        rw [if_neg (by omega), if_pos h0]
      rw [heq, hz]
      refine ⟨by norm_num, by norm_num, ?_⟩
      push_cast
      linarith
    · have h1 : 1 ≤ (maxGradScan strip).2 := by omega
      have h2 : (maxGradScan strip).2 ≤ strip.length - 2 := by omega
      have hcast : ((maxGradScan strip).2 : ℚ) ≤ (strip.length : ℚ) - 2 := by
        have h2' : (maxGradScan strip).2 + 2 ≤ strip.length := by omega
        have h2'' : ((maxGradScan strip).2 : ℚ) + 2 ≤ (strip.length : ℚ) := by
          exact_mod_cast h2'
        linarith
      have hcast1 : (1 : ℚ) ≤ ((maxGradScan strip).2 : ℚ) := by exact_mod_cast h1
      by_cases hd : |strip.getD (maxGradScan strip).2 0 -
            strip.getD ((maxGradScan strip).2 - 1) 0| +
          |strip.getD ((maxGradScan strip).2 + 1) 0 -
            strip.getD (maxGradScan strip).2 0| < 0.01
      · have heq : subpixelEdgePosition strip = ((maxGradScan strip).2 : ℚ) := by
          simp only [subpixelEdgePosition]
          rw [if_neg (by omega), if_neg h0, if_pos hd]
        rw [heq]
        refine ⟨by norm_num, by positivity, by linarith⟩
      · set gPrev := |strip.getD (maxGradScan strip).2 0 -
          strip.getD ((maxGradScan strip).2 - 1) 0| with hgp
        set gNext := |strip.getD ((maxGradScan strip).2 + 1) 0 -
          strip.getD (maxGradScan strip).2 0| with hgn
        have heq : subpixelEdgePosition strip = ((maxGradScan strip).2 : ℚ) +
            clamp ((gNext - gPrev) / (2 * (gPrev + gNext))) (-0.5) 0.5 := by
          simp only [subpixelEdgePosition]
          rw [if_neg (by omega), if_neg h0, if_neg hd]
        have hcl : clamp ((gNext - gPrev) / (2 * (gPrev + gNext))) (-0.5) 0.5 ≤ 0.5 :=
          clamp_le _ _ _ (by norm_num)
        have hcl' : (-0.5 : ℚ) ≤ clamp ((gNext - gPrev) / (2 * (gPrev + gNext))) (-0.5) 0.5 :=
          le_clamp _ _ _ (by norm_num)
        rw [heq]
        refine ⟨?_, ?_, ?_⟩
        · rw [abs_le]
          constructor
          · norm_num at hcl' ⊢
            linarith
          · norm_num at hcl ⊢
            linarith
        · norm_num at hcl' ⊢
          linarith
        · norm_num at hcl ⊢
          linarith
  exact ⟨main.1, main.2.1, main.2.2, hclampid⟩

/-- Witness for claim C9 on the concrete strip [0, 0, 10, 10]. -/
theorem subpixelEdgePosition_near_maxIdx_witness :
    |subpixelEdgePosition [0, 0, 10, 10] - ((maxGradScan [0, 0, 10, 10]).2 : ℚ)| ≤ 1 / 2 ∧
    0 ≤ subpixelEdgePosition [0, 0, 10, 10] ∧
    subpixelEdgePosition [0, 0, 10, 10] ≤ ([0, 0, 10, 10] : List ℚ).length - 1 :=
  ⟨(subpixelEdgePosition_near_maxIdx [0, 0, 10, 10] (by decide)).1,
    (subpixelEdgePosition_near_maxIdx [0, 0, 10, 10] (by decide)).2.1,
    (subpixelEdgePosition_near_maxIdx [0, 0, 10, 10] (by decide)).2.2.1⟩

theorem step_getD (a b : ℚ) (k m j : ℕ) (hj : j < k + m) :
    (List.replicate k a ++ List.replicate m b).getD j 0 = if j < k then a else b := by
  by_cases h : j < k
  · rw [if_pos h, List.getD_append _ _ _ _ (by simpa using h),
      List.getD_eq_getElem _ _ (by simpa using h), List.getElem_replicate]
  · rw [if_neg h, List.getD_append_right _ _ _ _ (by simpa using not_lt.mp h),
      List.getD_eq_getElem _ _ (by simp; omega), List.getElem_replicate]

/-- Claim C8: on a clean step strip, k samples of a followed by m samples
of b with a ≠ b and the step at least two samples away from either end,
subpixelEdgePosition returns a position within half a pixel of the true
discontinuity, which sits between samples k-1 and k, i.e. at k - 1/2. -/
theorem subpixelEdgePosition_step (a b : ℚ) (k m : ℕ)
    (hab : a ≠ b) (hk : 2 ≤ k) (hm : 2 ≤ m) :
    |subpixelEdgePosition (List.replicate k a ++ List.replicate m b) -
      ((k : ℚ) - 1 / 2)| ≤ 1 / 2 := by
  set strip := List.replicate k a ++ List.replicate m b with hstrip
  have hlen : strip.length = k + m := by simp [hstrip]
  have hg0 : (0 : ℚ) < |b - a| := abs_pos.mpr (sub_ne_zero.mpr (Ne.symm hab))
  have hget : ∀ j, j < k + m → strip.getD j 0 = if j < k then a else b :=
    fun j hj => step_getD a b k m j hj
  have hscan : maxGradScan strip = (|b - a|, k - 1) := by
    unfold maxGradScan
    rw [hlen]
    have e1 : List.range' 1 (k - 2) ++ List.range' (k - 1) m =
        List.range' 1 (k + m - 2) := by
      have h := List.range'_append 1 (k - 2) m 1
      rw [show 1 + 1 * (k - 2) = k - 1 from by omega,
        show m + (k - 2) = k + m - 2 from by omega] at h
      exact h
    have e2 : List.range' (k - 1) 1 ++ List.range' k (m - 1) =
        List.range' (k - 1) m := by
      have h := List.range'_append (k - 1) 1 (m - 1) 1
      rw [show k - 1 + 1 * 1 = k from by omega,
        show m - 1 + 1 = m from by omega] at h
      exact h
    rw [← e1, ← e2, List.foldl_append, List.foldl_append]
    have hc1 : List.foldl (maxGradStep strip) (0, 0) (List.range' 1 (k - 2)) =
        ((0 : ℚ), (0 : ℕ)) := by
      apply foldl_maxGradStep_id
      intro i hi
      have hi' : 1 ≤ i ∧ i < 1 + (k - 2) := List.mem_range'_1.mp hi
      rw [hget (i + 1) (by omega), hget (i - 1) (by omega),
        if_pos (by omega), if_pos (by omega)]
      simp
    have hc2 : List.foldl (maxGradStep strip) ((0 : ℚ), (0 : ℕ))
        (List.range' (k - 1) 1) = (|b - a|, k - 1) := by
      have hvb : strip.getD (k - 1 + 1) 0 = b := by
        rw [show k - 1 + 1 = k from by omega, hget k (by omega),
          if_neg (by omega)]
      have hva : strip.getD (k - 1 - 1) 0 = a := by
        rw [hget (k - 1 - 1) (by omega), if_pos (by omega)]
      rw [List.range'_one, List.foldl_cons, List.foldl_nil]
      simp only [maxGradStep, hvb, hva]
      rw [if_pos hg0]
    have hc3 : List.foldl (maxGradStep strip) (|b - a|, k - 1)
        (List.range' k (m - 1)) = (|b - a|, k - 1) := by
      apply foldl_maxGradStep_id
      intro i hi
      have hi' : k ≤ i ∧ i < k + (m - 1) := List.mem_range'_1.mp hi
      rw [hget (i + 1) (by omega), if_neg (by omega)]
      by_cases hik : i = k
      · rw [hget (i - 1) (by omega), if_pos (by omega)]
        subst hik
        simp
      · rw [hget (i - 1) (by omega), if_neg (by omega)]
        simp only [sub_self, abs_zero, gt_iff_lt, not_lt]
        exact le_of_lt hg0
    rw [hc1, hc2, hc3]
  have hms : (maxGradScan strip).2 = k - 1 := by rw [hscan]
  have hnot : ¬ ((maxGradScan strip).2 = 0 ∨
      strip.length - 1 ≤ (maxGradScan strip).2) := by
    rw [hms, hlen]
    omega
  have hgPrev : |strip.getD (maxGradScan strip).2 0 -
      strip.getD ((maxGradScan strip).2 - 1) 0| = 0 := by
    rw [hms, hget (k - 1) (by omega), hget (k - 1 - 1) (by omega),
      if_pos (by omega), if_pos (by omega)]
    simp
  have hgNext : |strip.getD ((maxGradScan strip).2 + 1) 0 -
      strip.getD (maxGradScan strip).2 0| = |b - a| := by
    rw [hms, show k - 1 + 1 = k from by omega, hget k (by omega),
      hget (k - 1) (by omega), if_neg (by omega), if_pos (by omega)]
  have hkc : ((k - 1 : ℕ) : ℚ) = (k : ℚ) - 1 := by
    rw [Nat.cast_sub (by omega : 1 ≤ k), Nat.cast_one]
  simp only [subpixelEdgePosition]
  rw [if_neg (by omega), if_neg hnot, hgPrev, hgNext, hms, hkc]
  simp only [zero_add, sub_zero]
  by_cases hd : |b - a| < 0.01
  · rw [if_pos hd]
    rw [show (k : ℚ) - 1 - ((k : ℚ) - 1 / 2) = -(1 / 2) from by ring]
    rw [abs_neg, abs_of_nonneg (by norm_num : (0 : ℚ) ≤ 1 / 2)]
  · rw [if_neg hd]
    have hoff : |b - a| / (2 * |b - a|) = 1 / 2 := by
      rw [div_eq_iff (by positivity)]
      ring
    rw [hoff, clamp_eq_self _ _ _ (by norm_num) (by norm_num)]
    rw [show (k : ℚ) - 1 + 1 / 2 - ((k : ℚ) - 1 / 2) = 0 from by ring]
    norm_num

/-- Witness for claim C8 on the concrete step strip [0, 0, 10, 10]
(k = m = 2): the returned position is within half a pixel of 1.5. -/
theorem subpixelEdgePosition_step_witness :
    |subpixelEdgePosition (List.replicate 2 (0 : ℚ) ++ List.replicate 2 (10 : ℚ)) -
      ((2 : ℚ) - 1 / 2)| ≤ 1 / 2 :=
  subpixelEdgePosition_step 0 10 2 2 (by norm_num) (by norm_num) (by norm_num)

-- ──────────────────────────────────────────────────────────────────────
-- Corner refinement
-- ──────────────────────────────────────────────────────────────────────

/-- The window offsets (dy, dx), both in [-r, r], in the loop order of the
corner search: dy outer, dx inner. -/
def searchOffsets (r : ℕ) : List (ℤ × ℤ) :=
  ((List.range (2 * r + 1)).map (fun i : ℕ => (i : ℤ) - r)).flatMap
    (fun dy => ((List.range (2 * r + 1)).map (fun i : ℕ => (i : ℤ) - r)).map
      (fun dx => (dy, dx)))

/-- The body of the corner search loop: round the offset position, skip it
when out of bounds, else adopt it when its gradient magnitude is strictly
larger than the best so far.  The state is (bestX, bestY, bestMag). -/
def refineStep (c : Point ℚ) (mag : ℤ → ℚ) (w h : ℕ) (s : ℚ × ℚ × ℚ)
    (p : ℤ × ℤ) : ℚ × ℚ × ℚ :=
  let nx := round (c.x + (p.2 : ℚ))
  let ny := round (c.y + (p.1 : ℚ))
  if nx < 0 ∨ (w : ℤ) ≤ nx ∨ ny < 0 ∨ (h : ℤ) ≤ ny then s
  else if mag (ny * (w : ℤ) + nx) > s.2.2 then
    ((nx : ℚ), (ny : ℚ), mag (ny * (w : ℤ) + nx))
  else s

/-- One corner of the source function refineCorners: local maximum search
of the gradient magnitude over the (2r+1) x (2r+1) window. -/
def refineCorner (c : Point ℚ) (mag : ℤ → ℚ) (w h : ℕ) (r : ℕ) : Point ℚ :=
  let res := (searchOffsets r).foldl (refineStep c mag w h) (c.x, c.y, 0)
  ⟨res.1, res.2.1⟩

/-- Source function refineCorners: refine each of the four corners
independently; the source default search radius is 15. -/
def refineCorners (corners : Fin 4 → Point ℚ) (mag : ℤ → ℚ) (w h : ℕ)
    (r : ℕ := 15) : Fin 4 → Point ℚ :=
  fun i => refineCorner (corners i) mag w h r

theorem mem_offsetList {r : ℕ} {z : ℤ}
    (hz : z ∈ (List.range (2 * r + 1)).map (fun i : ℕ => (i : ℤ) - r)) :
    |z| ≤ (r : ℤ) := by
  rcases List.mem_map.mp hz with ⟨i, hi, rfl⟩
  have := List.mem_range.mp hi
  rw [abs_le]
  omega

theorem searchOffsets_mem {r : ℕ} {p : ℤ × ℤ} (hp : p ∈ searchOffsets r) :
    |p.1| ≤ (r : ℤ) ∧ |p.2| ≤ (r : ℤ) := by
  unfold searchOffsets at hp
  rcases List.mem_flatMap.mp hp with ⟨dy, hdy, hp2⟩
  rcases List.mem_map.mp hp2 with ⟨dx, hdx, rfl⟩
  exact ⟨mem_offsetList hdy, mem_offsetList hdx⟩

theorem abs_round_add_sub {c d : ℚ} {r : ℕ} (hd : |d| ≤ (r : ℚ)) :
    |((round (c + d) : ℤ) : ℚ) - c| ≤ (r : ℚ) + 1 / 2 := by
  have h1 : |(c + d) - ((round (c + d) : ℤ) : ℚ)| ≤ 1 / 2 := abs_sub_round (c + d)
  have h2 : ((round (c + d) : ℤ) : ℚ) - c = d - ((c + d) - ((round (c + d) : ℤ) : ℚ)) := by
    ring
  rw [h2]
  calc |d - ((c + d) - ((round (c + d) : ℤ) : ℚ))| ≤
      |d| + |(c + d) - ((round (c + d) : ℤ) : ℚ)| := abs_sub _ _
    _ ≤ (r : ℚ) + 1 / 2 := by linarith

/-- Claim C10: every corner refineCorners returns moves by at most
r + 1/2 in each coordinate from its input corner (15.5 at the default
radius 15), and whenever it differs from the input corner at all it is an
integer pixel position inside [0, w-1] x [0, h-1]. -/
theorem refineCorners_bounds (corners : Fin 4 → Point ℚ) (mag : ℤ → ℚ)
    (w h : ℕ) (r : ℕ) (i : Fin 4) :
    |(refineCorners corners mag w h r i).x - (corners i).x| ≤ (r : ℚ) + 1 / 2 ∧
    |(refineCorners corners mag w h r i).y - (corners i).y| ≤ (r : ℚ) + 1 / 2 ∧
    (refineCorners corners mag w h r i ≠ corners i →
      ∃ nx ny : ℤ, (refineCorners corners mag w h r i).x = (nx : ℚ) ∧
        (refineCorners corners mag w h r i).y = (ny : ℚ) ∧
        0 ≤ nx ∧ nx ≤ (w : ℤ) - 1 ∧ 0 ≤ ny ∧ ny ≤ (h : ℤ) - 1) := by
  set c := corners i with hc
  have hinv : ∀ s : ℚ × ℚ × ℚ,
      s = (searchOffsets r).foldl (refineStep c mag w h) (c.x, c.y, 0) →
      (s.1 = c.x ∧ s.2.1 = c.y) ∨
        (∃ nx ny : ℤ, s.1 = (nx : ℚ) ∧ s.2.1 = (ny : ℚ) ∧
          0 ≤ nx ∧ nx < (w : ℤ) ∧ 0 ≤ ny ∧ ny < (h : ℤ) ∧
          |(nx : ℚ) - c.x| ≤ (r : ℚ) + 1 / 2 ∧ |(ny : ℚ) - c.y| ≤ (r : ℚ) + 1 / 2) := by
    intro s hs
    subst hs
    refine List.foldlRecOn
      (motive := fun s : ℚ × ℚ × ℚ =>
        (s.1 = c.x ∧ s.2.1 = c.y) ∨
          (∃ nx ny : ℤ, s.1 = (nx : ℚ) ∧ s.2.1 = (ny : ℚ) ∧
            0 ≤ nx ∧ nx < (w : ℤ) ∧ 0 ≤ ny ∧ ny < (h : ℤ) ∧
            |(nx : ℚ) - c.x| ≤ (r : ℚ) + 1 / 2 ∧ |(ny : ℚ) - c.y| ≤ (r : ℚ) + 1 / 2))
      _ _ _ (Or.inl ⟨rfl, rfl⟩) ?_
    intro s hq p hp
    have hoff := searchOffsets_mem hp
    simp only [refineStep]
    split
    · exact hq
    · next hbound =>
      push_neg at hbound
      split
      · refine Or.inr ⟨round (c.x + (p.2 : ℚ)), round (c.y + (p.1 : ℚ)),
          rfl, rfl, hbound.1, by omega, hbound.2.2.1, by omega, ?_, ?_⟩
        · refine abs_round_add_sub ?_
          have := hoff.2
          rw [abs_le] at this ⊢
          constructor <;> [exact_mod_cast this.1; exact_mod_cast this.2]
        · refine abs_round_add_sub ?_
          have := hoff.1
          rw [abs_le] at this ⊢
          constructor <;> [exact_mod_cast this.1; exact_mod_cast this.2]
      · exact hq
  have hres := hinv _ rfl
  have hfin : refineCorners corners mag w h r i =
      ⟨((searchOffsets r).foldl (refineStep c mag w h) (c.x, c.y, 0)).1,
        ((searchOffsets r).foldl (refineStep c mag w h) (c.x, c.y, 0)).2.1⟩ := rfl
  rcases hres with ⟨h1, h2⟩ | ⟨nx, ny, h1, h2, hb1, hb2, hb3, hb4, hd1, hd2⟩
  · rw [hfin, h1, h2]
    refine ⟨by simp; positivity, by simp; positivity, ?_⟩
    intro hne
    exact absurd rfl hne
  · rw [hfin, h1, h2]
    refine ⟨hd1, hd2, ?_⟩
    intro _
    exact ⟨nx, ny, rfl, rfl, hb1, by omega, hb3, by omega⟩

/-- Witness for claim C10 at a concrete input: on a 3x3 magnitude field
peaking at pixel (1, 1), the corner (0, 0) with radius 1 moves to the
integer pixel (1, 1) inside bounds. -/
theorem refineCorners_bounds_witness :
    |(refineCorners (fun _ => ⟨0, 0⟩) (fun j => if j = 4 then 5 else 0) 3 3 1 0).x -
      (0 : ℚ)| ≤ ((1 : ℕ) : ℚ) + 1 / 2 ∧
    (∃ nx ny : ℤ,
      (refineCorners (fun _ => ⟨0, 0⟩) (fun j => if j = 4 then 5 else 0) 3 3 1 0).x = (nx : ℚ) ∧
      (refineCorners (fun _ => ⟨0, 0⟩) (fun j => if j = 4 then 5 else 0) 3 3 1 0).y = (ny : ℚ) ∧
      0 ≤ nx ∧ nx ≤ (3 : ℤ) - 1 ∧ 0 ≤ ny ∧ ny ≤ (3 : ℤ) - 1) :=
  ⟨(refineCorners_bounds (fun _ => ⟨0, 0⟩) (fun j => if j = 4 then 5 else 0) 3 3 1 0).1,
    (refineCorners_bounds (fun _ => ⟨0, 0⟩) (fun j => if j = 4 then 5 else 0) 3 3 1 0).2.2
      (by decide)⟩

-- ──────────────────────────────────────────────────────────────────────
-- Loop index ranges and first-hit scans
-- ──────────────────────────────────────────────────────────────────────

section Ranges

variable {K : Type*} [LinearOrderedField K] [FloorRing K]

/-- The integer values an ascending loop visits: x starts at start and
advances by the positive step while x < bound, the bound possibly
fractional. -/
def intRangeAsc (start : ℤ) (bound : K) (step : ℤ) : List ℤ :=
  (List.range (⌈(bound - (start : K)) / (step : K)⌉.toNat)).map
    (fun i : ℕ => start + (i : ℤ) * step)

/-- The integer values a descending loop visits: x starts at start and
decreases by 1 while x > bound. -/
def intRangeDesc (start : ℤ) (bound : K) : List ℤ :=
  (List.range (⌈(start : K) - bound⌉.toNat)).map (fun i : ℕ => start - (i : ℤ))

theorem mem_intRangeAsc {start : ℤ} {bound : K} {step : ℤ} {x : ℤ}
    (hstep : 0 < step) (hx : x ∈ intRangeAsc start bound step) :
    start ≤ x ∧ (x : K) < bound := by
  rcases List.mem_map.mp hx with ⟨i, hi, rfl⟩
  have hib := List.mem_range.mp hi
  constructor
  · have h0 : (0 : ℤ) ≤ (i : ℤ) * step := mul_nonneg (by positivity) hstep.le
    omega
  · have h1 : (i : ℤ) < ⌈(bound - (start : K)) / (step : K)⌉ := by
      have := Int.lt_toNat.mp (by exact_mod_cast hib)
      exact this
    have h2 : ((i : ℤ) : K) < (bound - (start : K)) / (step : K) := Int.lt_ceil.mp h1
    have hstepK : (0 : K) < (step : K) := by exact_mod_cast hstep
    rw [lt_div_iff₀ hstepK] at h2
    push_cast
    push_cast at h2
    linarith

theorem mem_intRangeDesc {start : ℤ} {bound : K} {x : ℤ}
    (hx : x ∈ intRangeDesc start bound) :
    bound < (x : K) ∧ x ≤ start := by
  rcases List.mem_map.mp hx with ⟨i, hi, rfl⟩
  have hib := List.mem_range.mp hi
  constructor
  · have h1 : (i : ℤ) < ⌈(start : K) - bound⌉ := by
      have := Int.lt_toNat.mp (by exact_mod_cast hib)
      exact this
    have h2 : ((i : ℤ) : K) < (start : K) - bound := Int.lt_ceil.mp h1
    push_cast
    push_cast at h2
    linarith
  · omega

theorem pairwise_intRangeAsc (start : ℤ) (bound : K) (step : ℤ)
    (hstep : 0 < step) : (intRangeAsc start bound step).Pairwise (· < ·) := by
  unfold intRangeAsc
  refine List.Pairwise.map _ ?_ (List.pairwise_lt_range _)
  intro a b hab
  have : (a : ℤ) * step < (b : ℤ) * step := by
    apply mul_lt_mul_of_pos_right _ hstep
    exact_mod_cast hab
  omega

theorem pairwise_intRangeDesc (start : ℤ) (bound : K) :
    (intRangeDesc start bound).Pairwise (· > ·) := by
  unfold intRangeDesc
  refine List.Pairwise.map _ ?_ (List.pairwise_lt_range _)
  intro a b hab
  have : (a : ℤ) < (b : ℤ) := by exact_mod_cast hab
  omega

end Ranges

/-- The inner scan of one line: walk the candidate positions in order and
return the first one the predicate accepts; the loop breaks at the first
hit, so at most one position per line is recorded. -/
def firstHit (P : ℤ → Bool) : List ℤ → Option ℤ
  | [] => none
  | x :: xs => if P x then some x else firstHit P xs

theorem firstHit_some {P : ℤ → Bool} {l : List ℤ} {x : ℤ}
    (h : firstHit P l = some x) :
    x ∈ l ∧ P x = true ∧ ∃ l1 l2, l = l1 ++ x :: l2 ∧ ∀ z ∈ l1, P z = false := by
  induction l with
  | nil => simp [firstHit] at h
  | cons a t ih =>
    by_cases ha : P a
    · simp only [firstHit, ha, if_true, Option.some.injEq] at h
      subst h
      exact ⟨List.mem_cons_self _ _, ha, [], t, rfl, by simp⟩
    · simp only [firstHit, ha, if_false] at h
      obtain ⟨hmem, hP, l1, l2, hsplit, hfail⟩ := ih h
      refine ⟨List.mem_cons_of_mem _ hmem, hP, a :: l1, l2, by rw [hsplit]; rfl, ?_⟩
      intro z hz
      rcases List.mem_cons.mp hz with rfl | hz
      · simpa using ha
      · exact hfail z hz

theorem firstHit_none {P : ℤ → Bool} {l : List ℤ}
    (h : firstHit P l = none) : ∀ z ∈ l, P z = false := by
  induction l with
  | nil => simp
  | cons a t ih =>
    by_cases ha : P a
    · simp [firstHit, ha] at h
    · simp only [firstHit, ha, if_false] at h
      intro z hz
      rcases List.mem_cons.mp hz with rfl | hz
      · simpa using ha
      · exact ih h z hz

/-- A first hit in a strictly ascending candidate list is the least
accepted candidate: every smaller member of the list is rejected. -/
theorem firstHit_first_asc {P : ℤ → Bool} {l : List ℤ} {x : ℤ}
    (hpair : l.Pairwise (· < ·)) (h : firstHit P l = some x) :
    P x = true ∧ ∀ z ∈ l, z < x → P z = false := by
  obtain ⟨_, hP, l1, l2, rfl, hfail⟩ := firstHit_some h
  refine ⟨hP, ?_⟩
  intro z hz hzx
  rcases List.mem_append.mp hz with hz1 | hz2
  · exact hfail z hz1
  · exfalso
    rcases List.mem_cons.mp hz2 with rfl | hz2
    · omega
    · have := (List.pairwise_append.mp hpair).2.1
      have hxz := (List.pairwise_cons.mp this).1 z hz2
      omega

/-- A first hit in a strictly descending candidate list is the greatest
accepted candidate: every larger member of the list is rejected. -/
theorem firstHit_first_desc {P : ℤ → Bool} {l : List ℤ} {x : ℤ}
    (hpair : l.Pairwise (· > ·)) (h : firstHit P l = some x) :
    P x = true ∧ ∀ z ∈ l, x < z → P z = false := by
  obtain ⟨_, hP, l1, l2, rfl, hfail⟩ := firstHit_some h
  refine ⟨hP, ?_⟩
  intro z hz hzx
  rcases List.mem_append.mp hz with hz1 | hz2
  · exact hfail z hz1
  · exfalso
    rcases List.mem_cons.mp hz2 with rfl | hz2
    · omega
    · have := (List.pairwise_append.mp hpair).2.1
      have hxz := (List.pairwise_cons.mp this).1 z hz2
      omega

-- ──────────────────────────────────────────────────────────────────────
-- Border color detection
-- ──────────────────────────────────────────────────────────────────────

/-- The sampling stride: max(1, floor(min(width, height) / 200)). -/
def sampleStride (w h : ℕ) : ℤ := max 1 ⌊((min w h : ℕ) : ℚ) / 200⌋

/-- The sample coordinates of the four border strips in scan order (left,
right, top, bottom), each strip scanning its rows outer and columns
inner at the stride. -/
def borderSamples (w h : ℕ) : List (ℤ × ℤ) :=
  let s := sampleStride w h
  (intRangeAsc ⌊(h : ℚ) * 0.05⌋ ((h : ℚ) * (1 - 0.05)) s).flatMap
    (fun y => (intRangeAsc ⌊(w : ℚ) * 0.05⌋ ((w : ℚ) * 0.15) s).map
      (fun x => (x, y))) ++
  (intRangeAsc ⌊(h : ℚ) * 0.05⌋ ((h : ℚ) * (1 - 0.05)) s).flatMap
    (fun y => (intRangeAsc ⌊(w : ℚ) * (1 - 0.15)⌋ ((w : ℚ) * (1 - 0.05)) s).map
      (fun x => (x, y))) ++
  (intRangeAsc ⌊(h : ℚ) * 0.05⌋ ((h : ℚ) * 0.15) s).flatMap
    (fun y => (intRangeAsc ⌊(w : ℚ) * 0.15⌋ ((w : ℚ) * (1 - 0.15)) s).map
      (fun x => (x, y))) ++
  (intRangeAsc ⌊(h : ℚ) * (1 - 0.15)⌋ ((h : ℚ) * (1 - 0.05)) s).flatMap
    (fun y => (intRangeAsc ⌊(w : ℚ) * 0.15⌋ ((w : ℚ) * (1 - 0.15)) s).map
      (fun x => (x, y)))

/-- The classified color of every border sample, in sampling order. -/
def sampleClasses (img : ImageData) : List BorderColor :=
  (borderSamples img.width img.height).map (fun p =>
    let px := getPixel img.data (img.width : ℤ) p.1 p.2
    classifyPixelColor px.r px.g px.b)

/-- The tally of one color over the border samples. -/
def classCount (img : ImageData) (c : BorderColor) : ℕ :=
  (sampleClasses img).count c

/-- The number of border samples taken. -/
def totalSamples (img : ImageData) : ℕ := (sampleClasses img).length

/-- The dominant-color pick of detectBorderColor: fold over the four
concrete colors in the order black, white, yellow, silver, starting from
(unknown, 0), adopting a color only on a strictly larger tally. -/
def pickDominant (cnt : BorderColor → ℕ) : BorderColor × ℕ :=
  [BorderColor.black, BorderColor.white, BorderColor.yellow, BorderColor.silver].foldl
    (fun s c => if cnt c > s.2 then (c, cnt c) else s) (BorderColor.unknown, 0)

/-- Source function detectBorderColor: classify the border-strip samples,
pick the dominant concrete color, and report unknown when the dominant
share of all samples is not above 0.2, keeping the share as confidence. -/
def detectBorderColor (img : ImageData) : BorderColor × ℚ :=
  if totalSamples img = 0 then (BorderColor.unknown, 0)
  else
    let best := pickDominant (classCount img)
    let confidence := (best.2 : ℚ) / (totalSamples img : ℚ)
    (if confidence > 0.2 then best.1 else BorderColor.unknown, confidence)

/-- The largest tally among the four concrete border colors. -/
def maxCount4 (img : ImageData) : ℕ :=
  max (max (max (classCount img BorderColor.black) (classCount img BorderColor.white))
    (classCount img BorderColor.yellow)) (classCount img BorderColor.silver)

theorem pickDominant_snd (cnt : BorderColor → ℕ) :
    (pickDominant cnt).2 =
      max (max (max (cnt BorderColor.black) (cnt BorderColor.white))
        (cnt BorderColor.yellow)) (cnt BorderColor.silver) := by
  simp only [pickDominant, List.foldl]
  split_ifs <;> simp_all <;> omega

theorem pickDominant_fst_of_pos (cnt : BorderColor → ℕ)
    (h : 0 < (pickDominant cnt).2) :
    (pickDominant cnt).1 ≠ BorderColor.unknown ∧
      cnt (pickDominant cnt).1 = (pickDominant cnt).2 := by
  simp only [pickDominant, List.foldl] at h ⊢
  split_ifs at h ⊢ <;> simp_all

/-- Claim C4: detectBorderColor returns as confidence the largest tally
among black, white, yellow, silver divided by the number of samples;
whenever that confidence is at most 0.2 the reported color is unknown
(with the confidence still returned), and whenever it exceeds 0.2 the
reported color is one of the four concrete colors attaining the largest
tally. -/
theorem detectBorderColor_spec (img : ImageData) :
    (detectBorderColor img).2 = (maxCount4 img : ℚ) / (totalSamples img : ℚ) ∧
    ((detectBorderColor img).2 ≤ 0.2 →
      (detectBorderColor img).1 = BorderColor.unknown) ∧
    (0.2 < (detectBorderColor img).2 →
      (detectBorderColor img).1 ≠ BorderColor.unknown ∧
      classCount img (detectBorderColor img).1 = maxCount4 img) := by
  by_cases h0 : totalSamples img = 0
  · have hcnt : maxCount4 img = 0 := by
      have hb : ∀ c, classCount img c = 0 := by
        intro c
        have := List.count_le_length c (sampleClasses img)
        unfold classCount
        unfold totalSamples at h0
        omega
      unfold maxCount4
      rw [hb, hb, hb, hb]
      simp
    have heq : detectBorderColor img = (BorderColor.unknown, 0) := by
      unfold detectBorderColor
      rw [if_pos h0]
    rw [heq, hcnt]
    refine ⟨by simp, fun _ => rfl, fun hgt => absurd hgt (by norm_num)⟩
  · have hmax : (pickDominant (classCount img)).2 = maxCount4 img :=
      pickDominant_snd (classCount img)
    have heq : detectBorderColor img =
        (if ((pickDominant (classCount img)).2 : ℚ) / (totalSamples img : ℚ) > 0.2
          then (pickDominant (classCount img)).1 else BorderColor.unknown,
         ((pickDominant (classCount img)).2 : ℚ) / (totalSamples img : ℚ)) := by
      unfold detectBorderColor
      rw [if_neg h0]
    rw [heq]
    refine ⟨by rw [hmax], ?_, ?_⟩
    · intro hle
      simp only at hle ⊢
      rw [if_neg (not_lt.mpr hle)]
    · intro hgt
      simp only at hgt ⊢
      rw [if_pos hgt]
      have hpos : 0 < (pickDominant (classCount img)).2 := by
        rcases Nat.eq_zero_or_pos (pickDominant (classCount img)).2 with hz | hp
        · rw [hz] at hgt
          norm_num at hgt
        · exact hp
      have := pickDominant_fst_of_pos (classCount img) hpos
      exact ⟨this.1, by rw [this.2, hmax]⟩

/-- The all-black 10 by 10 test raster. -/
def imgBlack : ImageData := ⟨10, 10, fun _ => 0⟩

/-- Witness for claim C4 on the all-black raster: the dominant share
exceeds 0.2 and the reported color is a concrete color, not unknown. -/
theorem detectBorderColor_spec_witness :
    (0.2 : ℚ) < (detectBorderColor imgBlack).2 ∧
    (detectBorderColor imgBlack).1 ≠ BorderColor.unknown :=
  ⟨by decide, ((detectBorderColor_spec imgBlack).2.2 (by decide)).1⟩

-- ──────────────────────────────────────────────────────────────────────
-- Card edge location
-- ──────────────────────────────────────────────────────────────────────

/-- The four edge coordinates of the detected card box. -/
structure Edges (K : Type*) where
  left : K
  right : K
  top : K
  bottom : K
deriving DecidableEq, Repr

/-- Scan margins: 3 percent of the dimension, floored. -/
def marginX (w : ℕ) : ℤ := ⌊(w : ℚ) * 0.03⌋

/-- Scan margins: 3 percent of the dimension, floored. -/
def marginY (h : ℕ) : ℤ := ⌊(h : ℚ) * 0.03⌋

section EdgeScan

variable {K : Type*} [LinearOrderedField K] [FloorRing K]

/-- The adaptive threshold of findCardEdges: sort the positive magnitudes
ascending and take the value at the floor of 0.85 times the count, or the
constant 30 when no positive magnitude exists. -/
def edgeThreshold (mag : ℤ → K) (w h : ℕ) : K :=
  let sorted := sortAsc (((List.range (w * h)).map (fun i : ℕ => mag (i : ℤ))).filter
    (fun v => decide (v > 0)))
  if sorted = [] then 30
  else sorted.getD (⌊(sorted.length : K) * 0.85⌋).toNat 0

/-- Source function isNearBorderColor: with an unknown border color every
edge is accepted; otherwise the pixel at the clamped coordinates must
classify as the border color or as unknown (near a transition). -/
def isNearBorderColor (data : ℤ → ℚ) (w h : ℕ) (borderColor : BorderColor)
    (x y : ℤ) : Bool :=
  if borderColor = BorderColor.unknown then true
  else
    let px := getPixel data (w : ℤ) (clamp x 0 ((w : ℤ) - 1)) (clamp y 0 ((h : ℤ) - 1))
    let c := classifyPixelColor px.r px.g px.b
    decide (c = borderColor) || decide (c = BorderColor.unknown)

/-- The acceptance test of the left scan at column x of row y: vertical
edge strength above the threshold and a compatible pixel 2 to the left. -/
def leftPred (dirV : ℤ → K) (thr : K) (data : ℤ → ℚ) (w h : ℕ)
    (bc : BorderColor) (y x : ℤ) : Bool :=
  decide (dirV (y * (w : ℤ) + x) > thr) && isNearBorderColor data w h bc (x - 2) y

/-- The acceptance test of the right scan: compatible pixel 2 to the right. -/
def rightPred (dirV : ℤ → K) (thr : K) (data : ℤ → ℚ) (w h : ℕ)
    (bc : BorderColor) (y x : ℤ) : Bool :=
  decide (dirV (y * (w : ℤ) + x) > thr) && isNearBorderColor data w h bc (x + 2) y

/-- The acceptance test of the top scan at row y of column x: horizontal
edge strength above the threshold and a compatible pixel 2 above. -/
def topPred (dirH : ℤ → K) (thr : K) (data : ℤ → ℚ) (w h : ℕ)
    (bc : BorderColor) (x y : ℤ) : Bool :=
  decide (dirH (y * (w : ℤ) + x) > thr) && isNearBorderColor data w h bc x (y - 2)

/-- The acceptance test of the bottom scan: compatible pixel 2 below. -/
def bottomPred (dirH : ℤ → K) (thr : K) (data : ℤ → ℚ) (w h : ℕ)
    (bc : BorderColor) (x y : ℤ) : Bool :=
  decide (dirH (y * (w : ℤ) + x) > thr) && isNearBorderColor data w h bc x (y + 2)

/-- Candidate columns of the left scan: from marginX rightward while
x < w * 0.4. -/
def leftXs (w : ℕ) : List ℤ := intRangeAsc (marginX w) ((w : K) * 0.4) 1

/-- Candidate columns of the right scan: from w - marginX - 1 leftward
while x > w * 0.6. -/
def rightXs (w : ℕ) : List ℤ := intRangeDesc ((w : ℤ) - marginX w - 1) ((w : K) * 0.6)

/-- Candidate rows of the top scan: from marginY downward while y < h * 0.4. -/
def topYs (h : ℕ) : List ℤ := intRangeAsc (marginY h) ((h : K) * 0.4) 1

/-- Candidate rows of the bottom scan: from h - marginY - 1 upward while
y > h * 0.6. -/
def bottomYs (h : ℕ) : List ℤ := intRangeDesc ((h : ℤ) - marginY h - 1) ((h : K) * 0.6)

/-- The rows the left and right scans visit: every second row between the
vertical margins. -/
def sideLinesY (h : ℕ) : List ℤ :=
  intRangeAsc (marginY h) ((h : K) - (marginY h : K)) 2

/-- The columns the top and bottom scans visit: every second column
between the horizontal margins. -/
def sideLinesX (w : ℕ) : List ℤ :=
  intRangeAsc (marginX w) ((w : K) - (marginX w : K)) 2

/-- The recorded left-edge point of row y, if any: the first accepted
column, scanning rightward. -/
def leftHit (dirV : ℤ → K) (thr : K) (data : ℤ → ℚ) (w h : ℕ)
    (bc : BorderColor) (y : ℤ) : Option ℤ :=
  firstHit (leftPred dirV thr data w h bc y) (leftXs (K := K) w)

/-- The recorded right-edge point of row y, if any: the first accepted
column, scanning leftward. -/
def rightHit (dirV : ℤ → K) (thr : K) (data : ℤ → ℚ) (w h : ℕ)
    (bc : BorderColor) (y : ℤ) : Option ℤ :=
  firstHit (rightPred dirV thr data w h bc y) (rightXs (K := K) w)

/-- The recorded top-edge point of column x, if any: the first accepted
row, scanning downward. -/
def topHit (dirH : ℤ → K) (thr : K) (data : ℤ → ℚ) (w h : ℕ)
    (bc : BorderColor) (x : ℤ) : Option ℤ :=
  firstHit (topPred dirH thr data w h bc x) (topYs (K := K) h)

/-- The recorded bottom-edge point of column x, if any: the first accepted
row, scanning upward. -/
def bottomHit (dirH : ℤ → K) (thr : K) (data : ℤ → ℚ) (w h : ℕ)
    (bc : BorderColor) (x : ℤ) : Option ℤ :=
  firstHit (bottomPred dirH thr data w h bc x) (bottomYs (K := K) h)

/-- All recorded left-edge points, one per scanned row at most. -/
def leftPoints (dirV : ℤ → K) (thr : K) (data : ℤ → ℚ) (w h : ℕ)
    (bc : BorderColor) : List K :=
  (sideLinesY (K := K) h).filterMap
    (fun y => (leftHit dirV thr data w h bc y).map (fun x : ℤ => (x : K)))

/-- All recorded right-edge points, one per scanned row at most. -/
def rightPoints (dirV : ℤ → K) (thr : K) (data : ℤ → ℚ) (w h : ℕ)
    (bc : BorderColor) : List K :=
  (sideLinesY (K := K) h).filterMap
    (fun y => (rightHit dirV thr data w h bc y).map (fun x : ℤ => (x : K)))

/-- All recorded top-edge points, one per scanned column at most. -/
def topPoints (dirH : ℤ → K) (thr : K) (data : ℤ → ℚ) (w h : ℕ)
    (bc : BorderColor) : List K :=
  (sideLinesX (K := K) w).filterMap
    (fun x => (topHit dirH thr data w h bc x).map (fun y : ℤ => (y : K)))

/-- All recorded bottom-edge points, one per scanned column at most. -/
def bottomPoints (dirH : ℤ → K) (thr : K) (data : ℤ → ℚ) (w h : ℕ)
    (bc : BorderColor) : List K :=
  (sideLinesX (K := K) w).filterMap
    (fun x => (bottomHit dirH thr data w h bc x).map (fun y : ℤ => (y : K)))

/-- The robust aggregation of the four point lists: the median when more
than 5 points were collected, a fixed 5 / 95 percent default otherwise.
Components: (left, right, top, bottom). -/
def rawEdgeBox (lp rp tp bp : List K) (w h : ℕ) : K × K × K × K :=
  (if 5 < lp.length then median lp else (w : K) * 0.05,
   if 5 < rp.length then median rp else (w : K) * 0.95,
   if 5 < tp.length then median tp else (h : K) * 0.05,
   if 5 < bp.length then median bp else (h : K) * 0.95)

/-- The aspect-ratio correction: when the detected aspect is more than
0.15 away from the 5:7 card aspect, stretch the axis with fewer raw
sample points to match, holding its center.  The detectedW = detectedH = 0
case is excluded to mirror the IEEE comparison the source performs
(0 / 0 is NaN and a NaN comparison is false); it can only arise for
w = h = 0, where both branches collapse to the same clamped edges. -/
def aspectAdjust (box : K × K × K × K) (nlr ntb : ℕ) : K × K × K × K :=
  let left := box.1
  let right := box.2.1
  let top := box.2.2.1
  let bottom := box.2.2.2
  let detectedW := right - left
  let detectedH := bottom - top
  if (detectedW ≠ 0 ∨ detectedH ≠ 0) ∧ |detectedW / detectedH - 5 / 7| > 0.15 then
    if nlr > ntb then
      let expectedH := detectedW / (5 / 7)
      let centerY := (top + bottom) / 2
      (left, right, centerY - expectedH / 2, centerY + expectedH / 2)
    else
      let expectedW := detectedH * (5 / 7)
      let centerX := (left + right) / 2
      (centerX - expectedW / 2, centerX + expectedW / 2, top, bottom)
  else (left, right, top, bottom)

/-- The final rounding and clamping of the four edges into image bounds. -/
def clampEdges (box : K × K × K × K) (w h : ℕ) : Edges K :=
  ⟨clamp ((round box.1 : ℤ) : K) 0 ((w : K) - 1),
   clamp ((round box.2.1 : ℤ) : K) 0 ((w : K) - 1),
   clamp ((round box.2.2.1 : ℤ) : K) 0 ((h : K) - 1),
   clamp ((round box.2.2.2 : ℤ) : K) 0 ((h : K) - 1)⟩

/-- Source function findCardEdges: adaptive threshold, four directional
first-hit scans, median aggregation with defaults, aspect correction,
clamping, and a point-count confidence clamped into [0, 1]. -/
def findCardEdges (mag dirH dirV : ℤ → K) (w h : ℕ) (bc : BorderColor)
    (data : ℤ → ℚ) : Edges K × K :=
  let threshold := edgeThreshold mag w h
  let lp := leftPoints dirV threshold data w h bc
  let rp := rightPoints dirV threshold data w h bc
  let tp := topPoints dirH threshold data w h bc
  let bp := bottomPoints dirH threshold data w h bc
  let edges := clampEdges
    (aspectAdjust (rawEdgeBox lp rp tp bp w h)
      (lp.length + rp.length) (tp.length + bp.length)) w h
  let totalExpected := (h : K) / 2 + (w : K) / 2
  let totalFound := ((lp.length + rp.length + tp.length + bp.length : ℕ) : K)
  (edges, clamp (totalFound / totalExpected) 0 1)

end EdgeScan

-- ──────────────────────────────────────────────────────────────────────
-- Claim C6: per-line first-hit characterization of the scans
-- ──────────────────────────────────────────────────────────────────────

/-- Claim C6, amended: on every scan line of findCardEdges the recorded
edge point is the first pixel in scan order whose directional gradient
strength exceeds the threshold and whose neighbor pixel two pixels
outward is compatible with the detected border color, where compatible
means it classifies as that color or as unknown, and any color is
accepted when the detected border color is unknown (the predicates
leftPred, rightPred, topPred, bottomPred).  All scan positions earlier in
scan order fail the test, a line with no accepted position records
nothing, and at most one point is recorded per line. -/
theorem findCardEdges_scan_first (dirH dirV : ℤ → ℚ) (thr : ℚ)
    (data : ℤ → ℚ) (w h : ℕ) (bc : BorderColor) (y x : ℤ) :
    (leftHit dirV thr data w h bc y = some x →
      x ∈ leftXs (K := ℚ) w ∧ leftPred dirV thr data w h bc y x = true ∧
      ∀ z ∈ leftXs (K := ℚ) w, z < x →
        leftPred dirV thr data w h bc y z = false) ∧
    (leftHit dirV thr data w h bc y = none →
      ∀ z ∈ leftXs (K := ℚ) w, leftPred dirV thr data w h bc y z = false) ∧
    (rightHit dirV thr data w h bc y = some x →
      x ∈ rightXs (K := ℚ) w ∧ rightPred dirV thr data w h bc y x = true ∧
      ∀ z ∈ rightXs (K := ℚ) w, x < z →
        rightPred dirV thr data w h bc y z = false) ∧
    (rightHit dirV thr data w h bc y = none →
      ∀ z ∈ rightXs (K := ℚ) w, rightPred dirV thr data w h bc y z = false) ∧
    (topHit dirH thr data w h bc x = some y →
      y ∈ topYs (K := ℚ) h ∧ topPred dirH thr data w h bc x y = true ∧
      ∀ z ∈ topYs (K := ℚ) h, z < y →
        topPred dirH thr data w h bc x z = false) ∧
    (topHit dirH thr data w h bc x = none →
      ∀ z ∈ topYs (K := ℚ) h, topPred dirH thr data w h bc x z = false) ∧
    (bottomHit dirH thr data w h bc x = some y →
      y ∈ bottomYs (K := ℚ) h ∧ bottomPred dirH thr data w h bc x y = true ∧
      ∀ z ∈ bottomYs (K := ℚ) h, y < z →
        bottomPred dirH thr data w h bc x z = false) ∧
    (bottomHit dirH thr data w h bc x = none →
      ∀ z ∈ bottomYs (K := ℚ) h, bottomPred dirH thr data w h bc x z = false) ∧
    (leftPoints dirV thr data w h bc = (sideLinesY (K := ℚ) h).filterMap
      (fun l => (leftHit dirV thr data w h bc l).map (fun v : ℤ => (v : ℚ)))) := by
  refine ⟨?_, ?_, ?_, ?_, ?_, ?_, ?_, ?_, rfl⟩
  · intro hsome
    obtain ⟨hmem, hP, _⟩ := firstHit_some hsome
    have hfirst := firstHit_first_asc
      (pairwise_intRangeAsc (marginX w) ((w : ℚ) * 0.4) 1 (by norm_num)) hsome
    exact ⟨hmem, hP, hfirst.2⟩
  · exact fun hnone => firstHit_none hnone
  · intro hsome
    obtain ⟨hmem, hP, _⟩ := firstHit_some hsome
    have hfirst := firstHit_first_desc
      (pairwise_intRangeDesc ((w : ℤ) - marginX w - 1) ((w : ℚ) * 0.6)) hsome
    exact ⟨hmem, hP, hfirst.2⟩
  · exact fun hnone => firstHit_none hnone
  · intro hsome
    obtain ⟨hmem, hP, _⟩ := firstHit_some hsome
    have hfirst := firstHit_first_asc
      (pairwise_intRangeAsc (marginY h) ((h : ℚ) * 0.4) 1 (by norm_num)) hsome
    exact ⟨hmem, hP, hfirst.2⟩
  · exact fun hnone => firstHit_none hnone
  · intro hsome
    obtain ⟨hmem, hP, _⟩ := firstHit_some hsome
    have hfirst := firstHit_first_desc
      (pairwise_intRangeDesc ((h : ℤ) - marginY h - 1) ((h : ℚ) * 0.6)) hsome
    exact ⟨hmem, hP, hfirst.2⟩
  · exact fun hnone => firstHit_none hnone

-- ──────────────────────────────────────────────────────────────────────
-- Claim C3: edge ordering and bounds after clamping
-- ──────────────────────────────────────────────────────────────────────

section EdgeBounds

variable {K : Type*} [LinearOrderedField K] [FloorRing K]

theorem leftPoints_bounds {dirV : ℤ → K} {thr : K} {data : ℤ → ℚ} {w h : ℕ}
    {bc : BorderColor} {p : K} (hp : p ∈ leftPoints dirV thr data w h bc) :
    0 ≤ p ∧ p < (w : K) * 0.4 := by
  rcases List.mem_filterMap.mp hp with ⟨y, _, hmap⟩
  rcases Option.map_eq_some'.mp hmap with ⟨x, hx, rfl⟩
  have hxr : x ∈ leftXs (K := K) w := (firstHit_some hx).1
  have hb := mem_intRangeAsc (by norm_num) hxr
  have hm0 : (0 : ℤ) ≤ marginX w := Int.floor_nonneg.mpr (by positivity)
  exact ⟨by exact_mod_cast le_trans hm0 hb.1, hb.2⟩

theorem rightPoints_bounds {dirV : ℤ → K} {thr : K} {data : ℤ → ℚ} {w h : ℕ}
    {bc : BorderColor} {p : K} (hp : p ∈ rightPoints dirV thr data w h bc) :
    (w : K) * 0.6 < p ∧ p ≤ (w : K) := by
  rcases List.mem_filterMap.mp hp with ⟨y, _, hmap⟩
  rcases Option.map_eq_some'.mp hmap with ⟨x, hx, rfl⟩
  have hxr : x ∈ rightXs (K := K) w := (firstHit_some hx).1
  have hb := mem_intRangeDesc hxr
  have hm0 : (0 : ℤ) ≤ marginX w := Int.floor_nonneg.mpr (by positivity)
  refine ⟨hb.1, ?_⟩
  have hxw : x ≤ (w : ℤ) := by omega
  exact_mod_cast hxw

theorem topPoints_bounds {dirH : ℤ → K} {thr : K} {data : ℤ → ℚ} {w h : ℕ}
    {bc : BorderColor} {p : K} (hp : p ∈ topPoints dirH thr data w h bc) :
    0 ≤ p ∧ p < (h : K) * 0.4 := by
  rcases List.mem_filterMap.mp hp with ⟨x, _, hmap⟩
  rcases Option.map_eq_some'.mp hmap with ⟨y, hy, rfl⟩
  have hyr : y ∈ topYs (K := K) h := (firstHit_some hy).1
  have hb := mem_intRangeAsc (by norm_num) hyr
  have hm0 : (0 : ℤ) ≤ marginY h := Int.floor_nonneg.mpr (by positivity)
  exact ⟨by exact_mod_cast le_trans hm0 hb.1, hb.2⟩

theorem bottomPoints_bounds {dirH : ℤ → K} {thr : K} {data : ℤ → ℚ} {w h : ℕ}
    {bc : BorderColor} {p : K} (hp : p ∈ bottomPoints dirH thr data w h bc) :
    (h : K) * 0.6 < p ∧ p ≤ (h : K) := by
  rcases List.mem_filterMap.mp hp with ⟨x, _, hmap⟩
  rcases Option.map_eq_some'.mp hmap with ⟨y, hy, rfl⟩
  have hyr : y ∈ bottomYs (K := K) h := (firstHit_some hy).1
  have hb := mem_intRangeDesc hyr
  have hm0 : (0 : ℤ) ≤ marginY h := Int.floor_nonneg.mpr (by positivity)
  refine ⟨hb.1, ?_⟩
  have hyh : y ≤ (h : ℤ) := by omega
  exact_mod_cast hyh

theorem rawEdgeBox_bounds (lp rp tp bp : List K) (w h : ℕ)
    (hw : 1 ≤ w) (hh : 1 ≤ h)
    (hlp : ∀ p ∈ lp, 0 ≤ p ∧ p < (w : K) * 0.4)
    (hrp : ∀ p ∈ rp, (w : K) * 0.6 < p ∧ p ≤ (w : K))
    (htp : ∀ p ∈ tp, 0 ≤ p ∧ p < (h : K) * 0.4)
    (hbp : ∀ p ∈ bp, (h : K) * 0.6 < p ∧ p ≤ (h : K)) :
    (0 ≤ (rawEdgeBox lp rp tp bp w h).1 ∧
      (rawEdgeBox lp rp tp bp w h).1 < (w : K) * 0.4) ∧
    ((w : K) * 0.6 < (rawEdgeBox lp rp tp bp w h).2.1 ∧
      (rawEdgeBox lp rp tp bp w h).2.1 ≤ (w : K)) ∧
    (0 ≤ (rawEdgeBox lp rp tp bp w h).2.2.1 ∧
      (rawEdgeBox lp rp tp bp w h).2.2.1 < (h : K) * 0.4) ∧
    ((h : K) * 0.6 < (rawEdgeBox lp rp tp bp w h).2.2.2 ∧
      (rawEdgeBox lp rp tp bp w h).2.2.2 ≤ (h : K)) := by
  have hwK : (1 : K) ≤ (w : K) := by exact_mod_cast hw
  have hhK : (1 : K) ≤ (h : K) := by exact_mod_cast hh
  unfold rawEdgeBox
  refine ⟨?_, ?_, ?_, ?_⟩
  · by_cases hl : 5 < lp.length
    · rw [if_pos hl]
      have hne : lp ≠ [] := by
        intro hnil
        rw [hnil] at hl
        simp at hl
      exact ⟨le_median hne (fun p hp => (hlp p hp).1),
        median_lt hne (fun p hp => (hlp p hp).2)⟩
    · rw [if_neg hl]
      constructor <;> nlinarith
  · by_cases hr : 5 < rp.length
    · rw [if_pos hr]
      have hne : rp ≠ [] := by
        intro hnil
        rw [hnil] at hr
        simp at hr
      exact ⟨lt_median hne (fun p hp => (hrp p hp).1),
        median_le hne (fun p hp => (hrp p hp).2)⟩
    · rw [if_neg hr]
      constructor <;> nlinarith
  · by_cases ht : 5 < tp.length
    · rw [if_pos ht]
      have hne : tp ≠ [] := by
        intro hnil
        rw [hnil] at ht
        simp at ht
      exact ⟨le_median hne (fun p hp => (htp p hp).1),
        median_lt hne (fun p hp => (htp p hp).2)⟩
    · rw [if_neg ht]
      constructor <;> nlinarith
  · by_cases hb : 5 < bp.length
    · rw [if_pos hb]
      have hne : bp ≠ [] := by
        intro hnil
        rw [hnil] at hb
        simp at hb
      exact ⟨lt_median hne (fun p hp => (hbp p hp).1),
        median_le hne (fun p hp => (hbp p hp).2)⟩
    · rw [if_neg hb]
      constructor <;> nlinarith

theorem clampPair_lt (lo hi : K) (d : ℕ) (hd : 10 ≤ d)
    (h1 : ((round lo : ℤ) : K) < (d : K) - 1)
    (h2 : (0 : K) < ((round hi : ℤ) : K))
    (h3 : ((round lo : ℤ) : K) < ((round hi : ℤ) : K)) :
    clamp ((round lo : ℤ) : K) 0 ((d : K) - 1) <
      clamp ((round hi : ℤ) : K) 0 ((d : K) - 1) := by
  have hdK : (10 : K) ≤ (d : K) := by exact_mod_cast hd
  have hd1 : (0 : K) < (d : K) - 1 := by linarith
  rw [clamp_eq_max_min _ _ _ hd1.le, clamp_eq_max_min _ _ _ hd1.le]
  have hminhi : 0 < min ((round hi : ℤ) : K) ((d : K) - 1) := lt_min h2 hd1
  rw [min_eq_left h1.le, max_eq_right hminhi.le]
  exact max_lt hminhi (lt_min h3 h1)

theorem clampCenterPair_lt (cen e : K) (d : ℕ) (hd : 10 ≤ d)
    (hcen0 : (d : K) * 0.3 < cen) (hcen1 : cen < (d : K) * 0.7)
    (he : (1 : K) < e) :
    clamp ((round (cen - e / 2) : ℤ) : K) 0 ((d : K) - 1) <
      clamp ((round (cen + e / 2) : ℤ) : K) 0 ((d : K) - 1) := by
  have hdK : (10 : K) ≤ (d : K) := by exact_mod_cast hd
  refine clampPair_lt _ _ d hd ?_ ?_ ?_
  · have := round_le_add_half (cen - e / 2)
    linarith
  · have := sub_half_lt_round (cen + e / 2)
    linarith
  · have h1 := round_le_add_half (cen - e / 2)
    have h2 := sub_half_lt_round (cen + e / 2)
    linarith

theorem clampEdges_lt (box : K × K × K × K) (nlr ntb w h : ℕ)
    (hw : 10 ≤ w) (hh : 10 ≤ h)
    (hl0 : 0 ≤ box.1) (hl1 : box.1 < (w : K) * 0.4)
    (hr0 : (w : K) * 0.6 < box.2.1) (hr1 : box.2.1 ≤ (w : K))
    (ht0 : 0 ≤ box.2.2.1) (ht1 : box.2.2.1 < (h : K) * 0.4)
    (hb0 : (h : K) * 0.6 < box.2.2.2) (hb1 : box.2.2.2 ≤ (h : K)) :
    (clampEdges (aspectAdjust box nlr ntb) w h).left <
      (clampEdges (aspectAdjust box nlr ntb) w h).right ∧
    (clampEdges (aspectAdjust box nlr ntb) w h).top <
      (clampEdges (aspectAdjust box nlr ntb) w h).bottom := by
  obtain ⟨l, r, t, b⟩ := box
  simp only at hl0 hl1 hr0 hr1 ht0 ht1 hb0 hb1
  have hwK : (10 : K) ≤ (w : K) := by exact_mod_cast hw
  have hhK : (10 : K) ≤ (h : K) := by exact_mod_cast hh
  have hLR : ∀ lo hi : K, 0 ≤ lo → lo < (w : K) * 0.4 →
      (w : K) * 0.6 < hi → hi ≤ (w : K) →
      clamp ((round lo : ℤ) : K) 0 ((w : K) - 1) <
        clamp ((round hi : ℤ) : K) 0 ((w : K) - 1) := by
    intro lo hi hlo0 hlo1 hhi0 hhi1
    refine clampPair_lt lo hi w hw ?_ ?_ ?_
    · have := round_le_add_half lo
      linarith
    · have := sub_half_lt_round hi
      linarith
    · have h1 := round_le_add_half lo
      have h2 := sub_half_lt_round hi
      linarith
  have hTB : ∀ lo hi : K, 0 ≤ lo → lo < (h : K) * 0.4 →
      (h : K) * 0.6 < hi → hi ≤ (h : K) →
      clamp ((round lo : ℤ) : K) 0 ((h : K) - 1) <
        clamp ((round hi : ℤ) : K) 0 ((h : K) - 1) := by
    intro lo hi hlo0 hlo1 hhi0 hhi1
    refine clampPair_lt lo hi h hh ?_ ?_ ?_
    · have := round_le_add_half lo
      linarith
    · have := sub_half_lt_round hi
      linarith
    · have h1 := round_le_add_half lo
      have h2 := sub_half_lt_round hi
      linarith
  simp only [aspectAdjust, clampEdges]
  split_ifs with hadj hbr
  · -- adjust the vertical axis, left and right untouched
    simp only
    constructor
    · exact hLR l r hl0 hl1 hr0 hr1
    · have heH : (r - l) / (5 / 7 : K) = (r - l) * (7 / 5) := by ring
      refine clampCenterPair_lt ((t + b) / 2) ((r - l) / (5 / 7)) h hh
        (by linarith) (by linarith) ?_
      rw [heH]
      linarith
  · -- adjust the horizontal axis, top and bottom untouched
    simp only
    constructor
    · refine clampCenterPair_lt ((l + r) / 2) ((b - t) * (5 / 7)) w hw
        (by linarith) (by linarith) ?_
      linarith
    · exact hTB t b ht0 ht1 hb0 hb1
  · -- no aspect correction
    simp only
    exact ⟨hLR l r hl0 hl1 hr0 hr1, hTB t b ht0 ht1 hb0 hb1⟩

theorem clampEdges_bounds (box : K × K × K × K) (w h : ℕ)
    (hw : 1 ≤ w) (hh : 1 ≤ h) :
    0 ≤ (clampEdges box w h).left ∧ (clampEdges box w h).left ≤ (w : K) - 1 ∧
    0 ≤ (clampEdges box w h).right ∧ (clampEdges box w h).right ≤ (w : K) - 1 ∧
    0 ≤ (clampEdges box w h).top ∧ (clampEdges box w h).top ≤ (h : K) - 1 ∧
    0 ≤ (clampEdges box w h).bottom ∧ (clampEdges box w h).bottom ≤ (h : K) - 1 := by
  have hw1 : (0 : K) ≤ (w : K) - 1 := by
    have : (1 : K) ≤ (w : K) := by exact_mod_cast hw
    linarith
  have hh1 : (0 : K) ≤ (h : K) - 1 := by
    have : (1 : K) ≤ (h : K) := by exact_mod_cast hh
    linarith
  exact ⟨le_clamp _ _ _ hw1, clamp_le _ _ _ hw1, le_clamp _ _ _ hw1,
    clamp_le _ _ _ hw1, le_clamp _ _ _ hh1, clamp_le _ _ _ hh1,
    le_clamp _ _ _ hh1, clamp_le _ _ _ hh1⟩

/-- Claim C3, amended: for every gradient field and image data, provided
the image is at least 10 pixels in each dimension, the edges findCardEdges
returns satisfy left < right and top < bottom, all four clamped into
[0, dimension - 1].  The amendment restricts the claim to w, h at least
10: for degenerate tiny images the clamped edges can collapse (see the
counterexample at w = h = 1). -/
theorem findCardEdges_invariant (mag dirH dirV : ℤ → K) (w h : ℕ)
    (bc : BorderColor) (data : ℤ → ℚ) (hw : 10 ≤ w) (hh : 10 ≤ h) :
    (findCardEdges mag dirH dirV w h bc data).1.left <
      (findCardEdges mag dirH dirV w h bc data).1.right ∧
    (findCardEdges mag dirH dirV w h bc data).1.top <
      (findCardEdges mag dirH dirV w h bc data).1.bottom ∧
    0 ≤ (findCardEdges mag dirH dirV w h bc data).1.left ∧
    (findCardEdges mag dirH dirV w h bc data).1.left ≤ (w : K) - 1 ∧
    0 ≤ (findCardEdges mag dirH dirV w h bc data).1.right ∧
    (findCardEdges mag dirH dirV w h bc data).1.right ≤ (w : K) - 1 ∧
    0 ≤ (findCardEdges mag dirH dirV w h bc data).1.top ∧
    (findCardEdges mag dirH dirV w h bc data).1.top ≤ (h : K) - 1 ∧
    0 ≤ (findCardEdges mag dirH dirV w h bc data).1.bottom ∧
    (findCardEdges mag dirH dirV w h bc data).1.bottom ≤ (h : K) - 1 := by
  have hfst : (findCardEdges mag dirH dirV w h bc data).1 =
      clampEdges
        (aspectAdjust
          (rawEdgeBox (leftPoints dirV (edgeThreshold mag w h) data w h bc)
            (rightPoints dirV (edgeThreshold mag w h) data w h bc)
            (topPoints dirH (edgeThreshold mag w h) data w h bc)
            (bottomPoints dirH (edgeThreshold mag w h) data w h bc) w h)
          ((leftPoints dirV (edgeThreshold mag w h) data w h bc).length +
            (rightPoints dirV (edgeThreshold mag w h) data w h bc).length)
          ((topPoints dirH (edgeThreshold mag w h) data w h bc).length +
            (bottomPoints dirH (edgeThreshold mag w h) data w h bc).length)) w h := rfl
  obtain ⟨hL, hR, hT, hB⟩ := rawEdgeBox_bounds
    (leftPoints dirV (edgeThreshold mag w h) data w h bc)
    (rightPoints dirV (edgeThreshold mag w h) data w h bc)
    (topPoints dirH (edgeThreshold mag w h) data w h bc)
    (bottomPoints dirH (edgeThreshold mag w h) data w h bc)
    w h (by omega) (by omega)
    (fun p hp => leftPoints_bounds hp) (fun p hp => rightPoints_bounds hp)
    (fun p hp => topPoints_bounds hp) (fun p hp => bottomPoints_bounds hp)
  have hlt := clampEdges_lt
    (rawEdgeBox (leftPoints dirV (edgeThreshold mag w h) data w h bc)
      (rightPoints dirV (edgeThreshold mag w h) data w h bc)
      (topPoints dirH (edgeThreshold mag w h) data w h bc)
      (bottomPoints dirH (edgeThreshold mag w h) data w h bc) w h)
    ((leftPoints dirV (edgeThreshold mag w h) data w h bc).length +
      (rightPoints dirV (edgeThreshold mag w h) data w h bc).length)
    ((topPoints dirH (edgeThreshold mag w h) data w h bc).length +
      (bottomPoints dirH (edgeThreshold mag w h) data w h bc).length)
    w h hw hh hL.1 hL.2 hR.1 hR.2 hT.1 hT.2 hB.1 hB.2
  have hbounds := clampEdges_bounds
    (aspectAdjust
      (rawEdgeBox (leftPoints dirV (edgeThreshold mag w h) data w h bc)
        (rightPoints dirV (edgeThreshold mag w h) data w h bc)
        (topPoints dirH (edgeThreshold mag w h) data w h bc)
        (bottomPoints dirH (edgeThreshold mag w h) data w h bc) w h)
      ((leftPoints dirV (edgeThreshold mag w h) data w h bc).length +
        (rightPoints dirV (edgeThreshold mag w h) data w h bc).length)
      ((topPoints dirH (edgeThreshold mag w h) data w h bc).length +
        (bottomPoints dirH (edgeThreshold mag w h) data w h bc).length))
    w h (by omega) (by omega)
  rw [hfst]
  exact ⟨hlt.1, hlt.2, hbounds.1, hbounds.2.1, hbounds.2.2.1, hbounds.2.2.2.1,
    hbounds.2.2.2.2.1, hbounds.2.2.2.2.2.1, hbounds.2.2.2.2.2.2.1,
    hbounds.2.2.2.2.2.2.2⟩

end EdgeBounds

/-- Counterexample to claim C3 as stated: on a 1 by 1 image with an
all-zero gradient field, the aspect correction and the clamp to
[0, w - 1] = [0, 0] collapse the edges to left = right = 0, so left <
right fails. -/
theorem findCardEdges_invariant_cex :
    ¬ ((findCardEdges (K := ℚ) (fun _ => 0) (fun _ => 0) (fun _ => 0) 1 1
        BorderColor.unknown (fun _ => 0)).1.left <
      (findCardEdges (K := ℚ) (fun _ => 0) (fun _ => 0) (fun _ => 0) 1 1
        BorderColor.unknown (fun _ => 0)).1.right) := by
  decide

/-- Witness for claim C3 (amended) at a concrete input: the 10 by 10
all-zero field. -/
theorem findCardEdges_invariant_witness :
    (findCardEdges (K := ℚ) (fun _ => 0) (fun _ => 0) (fun _ => 0) 10 10
        BorderColor.unknown (fun _ => 0)).1.left <
      (findCardEdges (K := ℚ) (fun _ => 0) (fun _ => 0) (fun _ => 0) 10 10
        BorderColor.unknown (fun _ => 0)).1.right ∧
    (findCardEdges (K := ℚ) (fun _ => 0) (fun _ => 0) (fun _ => 0) 10 10
        BorderColor.unknown (fun _ => 0)).1.top <
      (findCardEdges (K := ℚ) (fun _ => 0) (fun _ => 0) (fun _ => 0) 10 10
        BorderColor.unknown (fun _ => 0)).1.bottom :=
  ⟨(findCardEdges_invariant (K := ℚ) (fun _ => 0) (fun _ => 0) (fun _ => 0)
      10 10 BorderColor.unknown (fun _ => 0) (by norm_num) (by norm_num)).1,
    (findCardEdges_invariant (K := ℚ) (fun _ => 0) (fun _ => 0) (fun _ => 0)
      10 10 BorderColor.unknown (fun _ => 0) (by norm_num) (by norm_num)).2.1⟩

/-- The all-red 10 by 10 test raster: every pixel is (255, 0, 0), which
classifyPixelColor classifies as unknown. -/
def imgRed : ImageData := ⟨10, 10, fun i => if i % 4 = 0 then 255 else 0⟩

/-- Counterexample to claim C6 as stated: scanning the first row of the
all-red raster with detected border color black and a uniformly strong
vertical gradient, the scan records the point x = 0, although no pixel in
the scan range has a neighbor that classifies as the detected border
color black.  The code also accepts neighbors that classify as unknown,
which the claim omits from its notion of compatibility. -/
theorem findCardEdges_scan_first_cex :
    leftHit (K := ℚ) (fun _ => (100 : ℚ))
        (edgeThreshold (K := ℚ) (fun _ => 0) 10 10)
        imgRed.data 10 10 BorderColor.black 0 = some 0 ∧
      ∀ z ∈ leftXs (K := ℚ) 10,
        classifyPixelColor
          (getPixel imgRed.data 10 (clamp (z - 2) 0 9) (clamp 0 0 9)).r
          (getPixel imgRed.data 10 (clamp (z - 2) 0 9) (clamp 0 0 9)).g
          (getPixel imgRed.data 10 (clamp (z - 2) 0 9) (clamp 0 0 9)).b ≠
          BorderColor.black := by
  decide

/-- Witness for claim C6 at the concrete counterexample input: the hit at
x = 0 satisfies the code predicate and no earlier scan position exists. -/
theorem findCardEdges_scan_first_witness :
    leftPred (K := ℚ) (fun _ => (100 : ℚ))
        (edgeThreshold (K := ℚ) (fun _ => 0) 10 10)
        imgRed.data 10 10 BorderColor.black 0 0 = true :=
  ((findCardEdges_scan_first (fun _ => 0) (fun _ => (100 : ℚ))
      (edgeThreshold (K := ℚ) (fun _ => 0) 10 10)
      imgRed.data 10 10 BorderColor.black 0 0).1 (by decide)).2.1

-- ──────────────────────────────────────────────────────────────────────
-- Perspective correction: skew check (claim C5)
-- ──────────────────────────────────────────────────────────────────────

/-- A quadruple of corner points, clockwise from top-left. -/
structure Quad (K : Type*) where
  p0 : Point K
  p1 : Point K
  p2 : Point K
  p3 : Point K
deriving DecidableEq, Repr

/-- The corners of a quadruple as a function of the index 0..3. -/
def Quad.pt {K : Type*} (q : Quad K) : Fin 4 → Point K
  | 0 => q.p0
  | 1 => q.p1
  | 2 => q.p2
  | 3 => q.p3

/-- Math.atan2 for exact real arguments, following the JavaScript
specification case split (signed zeros do not arise in this model). -/
noncomputable def atan2 (y x : ℝ) : ℝ :=
  if 0 < x then Real.arctan (y / x)
  else if x < 0 ∧ 0 ≤ y then Real.arctan (y / x) + Real.pi
  else if x < 0 then Real.arctan (y / x) - Real.pi
  else if 0 < y then Real.pi / 2
  else if y < 0 then -(Real.pi / 2)
  else 0

/-- Math.hypot of two arguments. -/
noncomputable def hypot (x y : ℝ) : ℝ := Real.sqrt (x * x + y * y)

/-- The maximum angular deviation from axis alignment of the four boundary
segments, as perspectiveCorrect computes it: atan2 of the top and bottom
segment slopes, atan2 with swapped arguments for the left and right
segments, absolute values, then the maximum of the four. -/
noncomputable def maxSkew (c : Quad ℝ) : ℝ :=
  let topAngle := |atan2 (c.p1.y - c.p0.y) (c.p1.x - c.p0.x)|
  let bottomAngle := |atan2 (c.p2.y - c.p3.y) (c.p2.x - c.p3.x)|
  let leftAngle := |atan2 (c.p3.x - c.p0.x) (c.p3.y - c.p0.y)|
  let rightAngle := |atan2 (c.p2.x - c.p1.x) (c.p2.y - c.p1.y)|
  max (max topAngle bottomAngle) (max leftAngle rightAngle)

/-- The outcome of the rectification decision: rectification skipped (the
source returns null), or rectification with the chosen output size. -/
inductive RectifyOutcome where
  | noCorrection
  | corrected (outW outH : ℤ)
deriving DecidableEq, Repr

/-- Source function perspectiveCorrect up to the output-size decision:
skip (return null) when the maximum skew is below 0.035 radians, else
rectify into output dimensions derived from the averaged side lengths
under the 5:7 card aspect.  The backward-mapped resampling that follows
writes canvas pixels and is consulted by no claim. -/
noncomputable def perspectiveCorrect (c : Quad ℝ) : RectifyOutcome :=
  if maxSkew c < 0.035 then .noCorrection
  else
    let topW := hypot (c.p1.x - c.p0.x) (c.p1.y - c.p0.y)
    let bottomW := hypot (c.p2.x - c.p3.x) (c.p2.y - c.p3.y)
    let leftH := hypot (c.p3.x - c.p0.x) (c.p3.y - c.p0.y)
    let rightH := hypot (c.p2.x - c.p1.x) (c.p2.y - c.p1.y)
    let avgW := (topW + bottomW) / 2
    let avgH := (leftH + rightH) / 2
    let outW := round avgW
    let outH := round ((outW : ℝ) / (5 / 7))
    if (outH : ℝ) > avgH * 1.3 then
      .corrected (round (((round avgH : ℤ) : ℝ) * (5 / 7))) (round avgH)
    else .corrected outW outH

/-- The corners of a perfectly axis-aligned rectangle, clockwise from
top-left. -/
def axisRect (x0 y0 x1 y1 : ℝ) : Quad ℝ :=
  ⟨⟨x0, y0⟩, ⟨x1, y0⟩, ⟨x1, y1⟩, ⟨x0, y1⟩⟩

/-- Claim C5: whenever the maximum angular deviation of the four boundary
segments is below 0.035 radians, perspectiveCorrect skips rectification
and returns the no-correction outcome (null in the source) rather than an
error; in particular the corners of any axis-aligned rectangle with
x0 < x1, y0 < y1 have maximum skew 0 and are never rectified. -/
theorem perspectiveCorrect_skip (c : Quad ℝ) (x0 y0 x1 y1 : ℝ) :
    (maxSkew c < 0.035 → perspectiveCorrect c = RectifyOutcome.noCorrection) ∧
    (x0 < x1 → y0 < y1 →
      maxSkew (axisRect x0 y0 x1 y1) = 0 ∧
      perspectiveCorrect (axisRect x0 y0 x1 y1) = RectifyOutcome.noCorrection) := by
  have hskip : ∀ q : Quad ℝ, maxSkew q < 0.035 →
      perspectiveCorrect q = RectifyOutcome.noCorrection := by
    intro q hq
    unfold perspectiveCorrect
    rw [if_pos hq]
  refine ⟨hskip c, ?_⟩
  intro hx hy
  have hz : ∀ x : ℝ, 0 < x → atan2 0 x = 0 := by
    intro x hx0
    unfold atan2
    rw [if_pos hx0, zero_div, Real.arctan_zero]
  have hzero : maxSkew (axisRect x0 y0 x1 y1) = 0 := by
    show max (max |atan2 (y0 - y0) (x1 - x0)| |atan2 (y1 - y1) (x1 - x0)|)
      (max |atan2 (x0 - x0) (y1 - y0)| |atan2 (x1 - x1) (y1 - y0)|) = 0
    simp only [sub_self]
    rw [hz (x1 - x0) (by linarith), hz (y1 - y0) (by linarith)]
    simp
  exact ⟨hzero, hskip _ (by rw [hzero]; norm_num)⟩

/-- Witness for claim C5 at the concrete axis-aligned rectangle with
corners (0,0) and (4,7). -/
theorem perspectiveCorrect_skip_witness :
    maxSkew (axisRect 0 0 4 7) = 0 ∧
    perspectiveCorrect (axisRect 0 0 4 7) = RectifyOutcome.noCorrection :=
  (perspectiveCorrect_skip (axisRect 0 0 4 7) 0 0 4 7).2 (by norm_num) (by norm_num)

-- ──────────────────────────────────────────────────────────────────────
-- Sobel gradients and the orchestrator confidence (claim C2)
-- ──────────────────────────────────────────────────────────────────────

/-- The horizontal Sobel response gx at (x, y), the six reads in source
order. -/
def sobelGxAt (gray : ℤ → ℚ) (w x y : ℤ) : ℚ :=
  -gray ((y - 1) * w + (x - 1)) + gray ((y - 1) * w + (x + 1)) +
  -(2 * gray (y * w + (x - 1))) + 2 * gray (y * w + (x + 1)) +
  -gray ((y + 1) * w + (x - 1)) + gray ((y + 1) * w + (x + 1))

/-- The vertical Sobel response gy at (x, y), the six reads in source
order. -/
def sobelGyAt (gray : ℤ → ℚ) (w x y : ℤ) : ℚ :=
  -gray ((y - 1) * w + (x - 1)) - 2 * gray ((y - 1) * w + x) -
    gray ((y - 1) * w + (x + 1)) +
  gray ((y + 1) * w + (x - 1)) + 2 * gray ((y + 1) * w + x) +
    gray ((y + 1) * w + (x + 1))

/-- The horizontal-edge-strength plane of sobelEdges: the absolute
vertical gradient at interior pixels, 0 on the never-written border ring. -/
def sobelDirH (gray : ℤ → ℚ) (w h : ℤ) : ℤ → ℚ := fun idx =>
  if 0 ≤ idx ∧ idx < w * h then
    let y := idx / w
    let x := idx % w
    if 1 ≤ y ∧ y < h - 1 ∧ 1 ≤ x ∧ x < w - 1 then |sobelGyAt gray w x y| else 0
  else 0

/-- The vertical-edge-strength plane of sobelEdges: the absolute
horizontal gradient at interior pixels, 0 on the never-written border
ring. -/
def sobelDirV (gray : ℤ → ℚ) (w h : ℤ) : ℤ → ℚ := fun idx =>
  if 0 ≤ idx ∧ idx < w * h then
    let y := idx / w
    let x := idx % w
    if 1 ≤ y ∧ y < h - 1 ∧ 1 ≤ x ∧ x < w - 1 then |sobelGxAt gray w x y| else 0
  else 0

/-- The magnitude plane of sobelEdges: sqrt(gx * gx + gy * gy) at interior
pixels, 0 on the border ring. -/
noncomputable def sobelMag (gray : ℤ → ℚ) (w h : ℤ) : ℤ → ℝ := fun idx =>
  if 0 ≤ idx ∧ idx < w * h then
    let y := idx / w
    let x := idx % w
    if 1 ≤ y ∧ y < h - 1 ∧ 1 ≤ x ∧ x < w - 1 then
      Real.sqrt ((sobelGxAt gray w x y : ℝ) * (sobelGxAt gray w x y : ℝ) +
        (sobelGyAt gray w x y : ℝ) * (sobelGyAt gray w x y : ℝ))
    else 0
  else 0

/-- The edge-location confidence of the analyzeCard pipeline on an image:
findCardEdges on the Sobel planes of the blurred grayscale, with the
detected border color.  The magnitude plane carries square roots, so the
edge locator is instantiated at the reals here. -/
noncomputable def edgeConfidenceOf (img : ImageData) : ℝ :=
  (findCardEdges (K := ℝ)
    (sobelMag (gaussianBlur3x3 (toGrayscale img) (img.width : ℤ) (img.height : ℤ))
      (img.width : ℤ) (img.height : ℤ))
    (fun i => ((sobelDirH (gaussianBlur3x3 (toGrayscale img) (img.width : ℤ)
      (img.height : ℤ)) (img.width : ℤ) (img.height : ℤ) i : ℚ) : ℝ))
    (fun i => ((sobelDirV (gaussianBlur3x3 (toGrayscale img) (img.width : ℤ)
      (img.height : ℤ)) (img.width : ℤ) (img.height : ℤ) i : ℚ) : ℝ))
    img.width img.height (detectBorderColor img).1 img.data).2

/-- The overall confidence CardDetectorV2.analyzeCard composes: the
border-color confidence and the edge confidence of the pure pipeline
(border color, grayscale, blur, Sobel, edge location on the original
image), blended 0.3 to 0.7 and clamped into [0, 1].  The canvas
rasterization around this computation is input acquisition and changes no
numbers. -/
noncomputable def analyzeCardConfidence (img : ImageData) : ℝ :=
  clamp (((detectBorderColor img).2 : ℝ) * 0.3 + edgeConfidenceOf img * 0.7) 0 1

/-- Claim C2: the overall confidence analyzeCard returns equals 0.3 times
the border-color confidence plus 0.7 times the edge confidence, clamped
to [0, 1], and in particular lies in [0, 1] for every input image,
including pure noise. -/
theorem analyzeCardConfidence_spec (img : ImageData) :
    analyzeCardConfidence img =
      clamp (((detectBorderColor img).2 : ℝ) * 0.3 + edgeConfidenceOf img * 0.7) 0 1 ∧
    0 ≤ analyzeCardConfidence img ∧ analyzeCardConfidence img ≤ 1 :=
  ⟨rfl, le_clamp _ _ _ (by norm_num), clamp_le _ _ _ (by norm_num)⟩

-- ──────────────────────────────────────────────────────────────────────
-- Homography estimation (claim C1)
-- ──────────────────────────────────────────────────────────────────────

/-- The augmented x-equation row of the DLT system for the correspondence
(s, d): the first eight entries of A-row [-sx, -sy, -1, 0, 0, 0, dx*sx,
dx*sy, dx] followed by the right side b = -dx. -/
def augRowX (s d : Point ℚ) : List ℚ :=
  [-s.x, -s.y, -1, 0, 0, 0, d.x * s.x, d.x * s.y, -d.x]

/-- The augmented y-equation row: the first eight entries of A-row
[0, 0, 0, -sx, -sy, -1, dy*sx, dy*sy, dy] followed by b = -dy. -/
def augRowY (s d : Point ℚ) : List ℚ :=
  [0, 0, 0, -s.x, -s.y, -1, d.y * s.x, d.y * s.y, -d.y]

/-- The augmented 8 x 9 system [M | b] computeHomography eliminates: rows
2i and 2i+1 come from correspondence i. -/
def homAug (src dst : Quad ℚ) : List (List ℚ) :=
  [augRowX src.p0 dst.p0, augRowY src.p0 dst.p0,
   augRowX src.p1 dst.p1, augRowY src.p1 dst.p1,
   augRowX src.p2 dst.p2, augRowY src.p2 dst.p2,
   augRowX src.p3 dst.p3, augRowY src.p3 dst.p3]

/-- Positional entry (r, c) of a row-list matrix; absent positions read as
the 0 a fresh typed array holds. -/
def entry (aug : List (List ℚ)) (r c : ℕ) : ℚ := (aug.getD r []).getD c 0

/-- The pivot tolerance of the source, 1e-12. -/
def epsPivot : ℚ := 1 / 10 ^ 12

/-- The partial-pivot search of column col: scan rows col+1 .. 7 and keep
the first row of strictly largest absolute value in column col, starting
from row col itself. -/
def pivotSearch (aug : List (List ℚ)) (col : ℕ) : ℚ × ℕ :=
  (List.range' (col + 1) (7 - col)).foldl
    (fun s r => if |entry aug r col| > s.1 then (|entry aug r col|, r) else s)
    (|entry aug col col|, col)

/-- The destructuring swap of two rows. -/
def swapRows (aug : List (List ℚ)) (i j : ℕ) : List (List ℚ) :=
  (aug.set i (aug.getD j [])).set j (aug.getD i [])

/-- The swap phase of one elimination column. -/
def swapStep (aug : List (List ℚ)) (col : ℕ) : List (List ℚ) :=
  swapRows aug col (pivotSearch aug col).2

/-- The inner elimination loop on one target row: with the factor fixed
before the loop, subtract factor times the pivot row on columns col .. 8,
leaving earlier columns untouched. -/
def elimRow (piv : List ℚ) (col : ℕ) (row : List ℚ) : List ℚ :=
  (List.range 9).map (fun j : ℕ =>
    if col ≤ j then row.getD j 0 - row.getD col 0 / piv.getD col 0 * piv.getD j 0
    else row.getD j 0)

/-- One column of the forward elimination with partial pivoting: swap the
pivot row up; when the pivot is at least 1e-12 in absolute value,
eliminate the rows below it, else leave the column as is. -/
def elimStep (aug : List (List ℚ)) (col : ℕ) : List (List ℚ) :=
  let s := swapStep aug col
  if |entry s col col| < epsPivot then s
  else (List.range 8).map (fun r : ℕ =>
    if col < r then elimRow (s.getD col []) col (s.getD r []) else s.getD r [])

/-- The forward elimination after the first k columns. -/
def elimUpTo (aug : List (List ℚ)) (k : ℕ) : List (List ℚ) :=
  (List.range k).foldl elimStep aug

/-- The full forward elimination over columns 0 .. 7. -/
def forwardElim (aug : List (List ℚ)) : List (List ℚ) := elimUpTo aug 8

/-- The pivot value the elimination of column col tests against 1e-12:
the diagonal entry after the swap phase of that column. -/
def pivotVal (aug : List (List ℚ)) (col : ℕ) : ℚ :=
  entry (swapStep (elimUpTo aug col) col) col col

/-- Back substitution, bottom row first: backSubAux aug k lists the
solved values [h(8-k), ..., h7]; each new row divides by its diagonal
entry when that exceeds 1e-12 in absolute value and is set to 0
otherwise, exactly as the descending source loop does. -/
def backSubAux (aug : List (List ℚ)) : ℕ → List ℚ
  | 0 => []
  | k + 1 =>
    let tail := backSubAux aug k
    let row := 8 - (k + 1)
    let s := entry aug row 8 -
      ∑ j ∈ Finset.range k, entry aug row (row + 1 + j) * tail.getD j 0
    (if |entry aug row row| > epsPivot then s / entry aug row row else 0) :: tail

/-- Source function computeHomography: build the 8-equation DLT system
with h[8] fixed to 1, eliminate with partial pivoting, back-substitute.
The result maps indices 0 .. 8 to the matrix entries (positions past the
Float64Array read as undefined and are never used). -/
def computeHomography (src dst : Quad ℚ) : ℕ → ℚ := fun i =>
  if i < 8 then (backSubAux (forwardElim (homAug src dst)) 8).getD i 0
  else if i = 8 then 1 else 0

/-- Source function applyHomography: projective application with the
degenerate-denominator guard returning (0, 0). -/
def applyHomography (H : ℕ → ℚ) (x y : ℚ) : Point ℚ :=
  if |H 6 * x + H 7 * y + H 8| < 1 / 10 ^ 12 then ⟨0, 0⟩
  else ⟨(H 0 * x + H 1 * y + H 2) / (H 6 * x + H 7 * y + H 8),
    (H 3 * x + H 4 * y + H 5) / (H 6 * x + H 7 * y + H 8)⟩

/-- The projective denominator of the solved homography at source
point i. -/
def homDenom (src dst : Quad ℚ) (i : Fin 4) : ℚ :=
  computeHomography src dst 6 * (src.pt i).x +
    computeHomography src dst 7 * (src.pt i).y + computeHomography src dst 8

/-- A function v solves the 8-row augmented system: for every row the
inner product of the first eight entries with v equals the ninth. -/
def Solves (aug : List (List ℚ)) (v : ℕ → ℚ) : Prop :=
  ∀ r < 8, (∑ j ∈ Finset.range 8, entry aug r j * v j) = entry aug r 8

/-- Zeros below the diagonal in the first k columns. -/
def ZeroBelow (aug : List (List ℚ)) (k : ℕ) : Prop :=
  ∀ r c, c < k → c < r → r < 8 → entry aug r c = 0

theorem getD_rangeMap {α : Type*} (f : ℕ → α) (n r : ℕ) (d : α) (h : r < n) :
    ((List.range n).map f).getD r d = f r := by
  rw [List.getD_eq_getElem _ _ (by simpa using h), List.getElem_map,
    List.getElem_range]

theorem getD_set_self {α : Type*} (l : List α) (i : ℕ) (a d : α)
    (h : i < l.length) : (l.set i a).getD i d = a := by
  rw [List.getD_eq_getElem?_getD, List.getElem?_set]
  simp [h]

theorem getD_set_ne {α : Type*} (l : List α) (i j : ℕ) (a d : α)
    (h : i ≠ j) : (l.set i a).getD j d = l.getD j d := by
  rw [List.getD_eq_getElem?_getD, List.getElem?_set, if_neg h,
    List.getD_eq_getElem?_getD]

theorem length_swapRows (aug : List (List ℚ)) (i j : ℕ) :
    (swapRows aug i j).length = aug.length := by
  simp [swapRows]

/-- The rows of a swap: row j reads the old row i, row i the old row j,
every other row is untouched. -/
theorem getD_swapRows (aug : List (List ℚ)) (i j r : ℕ)
    (hi : i < aug.length) (hj : j < aug.length) :
    (swapRows aug i j).getD r [] =
      if r = j then aug.getD i [] else if r = i then aug.getD j []
      else aug.getD r [] := by
  unfold swapRows
  by_cases hrj : r = j
  · subst hrj
    rw [if_pos rfl, getD_set_self _ _ _ _ (by simpa using hj)]
  · rw [if_neg hrj, getD_set_ne _ _ _ _ _ (fun hc => hrj hc.symm)]
    by_cases hri : r = i
    · subst hri
      rw [if_pos rfl, getD_set_self _ _ _ _ hi]
    · rw [if_neg hri, getD_set_ne _ _ _ _ _ (fun hc => hri hc.symm)]

theorem pivotSearch_bounds (aug : List (List ℚ)) (col : ℕ) (hcol : col < 8) :
    col ≤ (pivotSearch aug col).2 ∧ (pivotSearch aug col).2 < 8 := by
  unfold pivotSearch
  refine List.foldlRecOn
    (motive := fun s : ℚ × ℕ => col ≤ s.2 ∧ s.2 < 8)
    _ _ _ ⟨le_refl col, hcol⟩ ?_
  intro s hs r hr
  have hr' : col + 1 ≤ r ∧ r < col + 1 + (7 - col) := List.mem_range'_1.mp hr
  split
  · exact ⟨by omega, by omega⟩
  · exact hs

theorem solves_swapRows (aug : List (List ℚ)) (i j : ℕ) (v : ℕ → ℚ)
    (hlen : aug.length = 8) (hi : i < 8) (hj : j < 8) :
    Solves (swapRows aug i j) v ↔ Solves aug v := by
  set σ : ℕ → ℕ := fun r => if r = j then i else if r = i then j else r with hσ
  have hent : ∀ r c, entry (swapRows aug i j) r c = entry aug (σ r) c := by
    intro r c
    unfold entry
    rw [getD_swapRows aug i j r (by omega) (by omega)]
    simp only [hσ]
    by_cases hrj : r = j
    · simp [hrj]
    · by_cases hri : r = i
      · by_cases hij : i = j <;> simp [hri, hrj, hij]
      · simp [hri, hrj]
  have hσσ : ∀ r, σ (σ r) = r := by
    intro r
    simp only [hσ]
    by_cases hrj : r = j
    · by_cases hij : i = j
      · simp [hrj, hij]
      · simp [hrj, hij]
    · by_cases hri : r = i
      · simp [hri, hrj]
      · simp [hri, hrj]
  have hσ8 : ∀ r, r < 8 → σ r < 8 := by
    intro r hr
    simp only [hσ]
    split_ifs <;> omega
  constructor
  · intro hs r hr
    have h2 := hs (σ r) (hσ8 r hr)
    simp only [hent, hσσ] at h2
    exact h2
  · intro hs r hr
    simp only [hent]
    exact hs (σ r) (hσ8 r hr)

theorem length_elimRow (piv : List ℚ) (col : ℕ) (row : List ℚ) :
    (elimRow piv col row).length = 9 := by
  simp [elimRow]

/-- The entries an elimination pass writes on one target row: columns at
col and beyond subtract factor times the pivot row, earlier columns are
copied. -/
theorem entry_elimRow (s : List (List ℚ)) (p r col j : ℕ) (hj : j < 9) :
    (elimRow (s.getD p []) col (s.getD r [])).getD j 0 =
      if col ≤ j then entry s r j - entry s r col / entry s p col * entry s p j
      else entry s r j := by
  unfold elimRow entry
  rw [getD_rangeMap _ _ _ _ hj]

theorem elimUpTo_succ (aug : List (List ℚ)) (k : ℕ) :
    elimUpTo aug (k + 1) = elimStep (elimUpTo aug k) k := by
  simp [elimUpTo, List.range_succ]

theorem length_elimStep (aug : List (List ℚ)) (col : ℕ)
    (hlen : aug.length = 8) : (elimStep aug col).length = 8 := by
  simp only [elimStep]
  split
  · rw [swapStep, length_swapRows, hlen]
  · simp

theorem length_elimUpTo (aug : List (List ℚ)) (k : ℕ)
    (hlen : aug.length = 8) : (elimUpTo aug k).length = 8 := by
  induction k with
  | zero => simpa [elimUpTo] using hlen
  | succ n ih => rw [elimUpTo_succ]; exact length_elimStep _ _ ih

/-- Rows strictly above the working column are untouched by one
elimination step. -/
theorem getD_elimStep_lt (aug : List (List ℚ)) (col r : ℕ) (hr : r < col)
    (hcol : col < 8) (hlen : aug.length = 8) :
    (elimStep aug col).getD r [] = aug.getD r [] := by
  have hm := pivotSearch_bounds aug col hcol
  have hswap : (swapStep aug col).getD r [] = aug.getD r [] := by
    unfold swapStep
    rw [getD_swapRows _ _ _ _ (by omega) (by omega), if_neg (by omega),
      if_neg (by omega)]
  simp only [elimStep]
  split
  · exact hswap
  · rw [getD_rangeMap _ _ _ _ (by omega), if_neg (by omega)]
    exact hswap

/-- The inner product of an eliminated row with any vector is the old
inner product minus factor times the pivot-row inner product, provided
the pivot row is zero left of the working column. -/
theorem sum_elimRow (s : List (List ℚ)) (p r col : ℕ) (v : ℕ → ℚ)
    (hcol : col < 8) (hz : ∀ c, c < col → entry s p c = 0) :
    (∑ j ∈ Finset.range 8,
        (elimRow (s.getD p []) col (s.getD r [])).getD j 0 * v j) =
      (∑ j ∈ Finset.range 8, entry s r j * v j) -
        entry s r col / entry s p col *
          ∑ j ∈ Finset.range 8, entry s p j * v j := by
  rw [Finset.mul_sum, ← Finset.sum_sub_distrib]
  refine Finset.sum_congr rfl ?_
  intro j hj
  have hj8 : j < 8 := Finset.mem_range.mp hj
  rw [entry_elimRow _ _ _ _ _ (by omega)]
  by_cases h : col ≤ j
  · rw [if_pos h]; ring
  · rw [if_neg h, hz j (by omega)]; ring

/-- The right side of an eliminated row. -/
theorem rhs_elimRow (s : List (List ℚ)) (p r col : ℕ) (hcol : col < 8) :
    (elimRow (s.getD p []) col (s.getD r [])).getD 8 0 =
      entry s r 8 - entry s r col / entry s p col * entry s p 8 := by
  rw [entry_elimRow _ _ _ _ _ (by omega), if_pos (by omega)]

/-- One elimination step is an invertible row operation: it neither adds
nor removes solutions of the linear system. -/
theorem solves_elimStep (aug : List (List ℚ)) (col : ℕ) (v : ℕ → ℚ)
    (hlen : aug.length = 8) (hcol : col < 8)
    (hz : ∀ c, c < col → entry (swapStep aug col) col c = 0) :
    Solves (elimStep aug col) v ↔ Solves aug v := by
  have hm := pivotSearch_bounds aug col hcol
  have hswap : Solves (swapStep aug col) v ↔ Solves aug v := by
    unfold swapStep
    exact solves_swapRows aug col (pivotSearch aug col).2 v hlen hcol hm.2
  rw [← hswap]
  simp only [elimStep]
  split
  · exact Iff.rfl
  · set s := swapStep aug col with hsdef
    have hE : ∀ r, r < 8 → ∀ c,
        entry ((List.range 8).map (fun r : ℕ =>
          if col < r then elimRow (s.getD col []) col (s.getD r [])
          else s.getD r [])) r c =
        if col < r then (elimRow (s.getD col []) col (s.getD r [])).getD c 0
        else entry s r c := by
      intro r hr c
      unfold entry
      rw [getD_rangeMap _ _ _ _ hr]
      by_cases h : col < r
      · rw [if_pos h, if_pos h]
      · rw [if_neg h, if_neg h]
    constructor
    · intro h r hr
      have hpivrow : (∑ j ∈ Finset.range 8, entry s col j * v j) =
          entry s col 8 := by
        have h2 := h col hcol
        simp only [hE col hcol, if_neg (lt_irrefl col)] at h2
        exact h2
      have h2 := h r hr
      simp only [hE r hr] at h2
      by_cases hcr : col < r
      · simp only [if_pos hcr] at h2
        rw [sum_elimRow _ _ _ _ _ hcol hz,
          rhs_elimRow _ _ _ _ hcol, hpivrow] at h2
        linarith [h2]
      · simp only [if_neg hcr] at h2
        exact h2
    · intro h r hr
      have hpivrow := h col hcol
      have hrow := h r hr
      simp only [hE r hr]
      by_cases hcr : col < r
      · simp only [if_pos hcr]
        rw [sum_elimRow _ _ _ _ _ hcol hz,
          rhs_elimRow _ _ _ _ hcol, hpivrow, hrow]
      · simp only [if_neg hcr]
        exact hrow

/-- The swap phase only permutes rows at or below the working column, so
zeros already established left of it survive. -/
theorem zeroBelow_swapStep (aug : List (List ℚ)) (col : ℕ)
    (hlen : aug.length = 8) (hcol : col < 8) (hzb : ZeroBelow aug col) :
    ZeroBelow (swapStep aug col) col := by
  intro r c hc hcr hr
  have hm := pivotSearch_bounds aug col hcol
  unfold swapStep entry
  rw [getD_swapRows _ _ _ _ (by omega) (by omega)]
  split_ifs with h1 h2
  · exact hzb col c hc (by omega) (by omega)
  · exact hzb _ c hc (by omega) hm.2
  · exact hzb r c hc hcr hr

/-- After eliminating a column with a pivot that passes the tolerance
test, the matrix has zeros below the diagonal one column further. -/
theorem zeroBelow_elimStep (aug : List (List ℚ)) (col : ℕ)
    (hlen : aug.length = 8) (hcol : col < 8) (hzb : ZeroBelow aug col)
    (hp : ¬ |entry (swapStep aug col) col col| < epsPivot) :
    ZeroBelow (elimStep aug col) (col + 1) := by
  have hs := zeroBelow_swapStep aug col hlen hcol hzb
  have hpne : entry (swapStep aug col) col col ≠ 0 := by
    intro h0
    apply hp
    rw [h0]
    norm_num [epsPivot]
  intro r c hc hcr hr
  simp only [elimStep]
  rw [if_neg hp]
  unfold entry
  rw [getD_rangeMap _ _ _ _ hr]
  by_cases hcolr : col < r
  · rw [if_pos hcolr]
    have := entry_elimRow (swapStep aug col) col r col c (by omega)
    rw [this]
    by_cases hcc : c = col
    · subst hcc
      rw [if_pos (le_refl c)]
      have hcancel : entry (swapStep aug c) r c / entry (swapStep aug c) c c *
          entry (swapStep aug c) c c = entry (swapStep aug c) r c :=
        div_mul_cancel₀ _ hpne
      rw [hcancel, sub_self]
    · have hccol : c < col := by omega
      rw [if_neg (by omega)]
      exact hs r c hccol hcr hr
  · rw [if_neg hcolr]
    exact hs r c (by omega) hcr hr

/-- The running invariant of the forward elimination: after k columns the
matrix still has 8 rows, is zero below the diagonal in the first k
columns, and has exactly the solutions of the input system. -/
theorem elimUpTo_invariant (aug : List (List ℚ)) (hlen : aug.length = 8)
    (hpiv : ∀ col, col < 8 → epsPivot < |pivotVal aug col|) (k : ℕ)
    (hk : k ≤ 8) :
    (elimUpTo aug k).length = 8 ∧ ZeroBelow (elimUpTo aug k) k ∧
      ∀ v, Solves (elimUpTo aug k) v ↔ Solves aug v := by
  induction k with
  | zero =>
    refine ⟨hlen, ?_, fun v => Iff.rfl⟩
    intro r c hc _ _
    omega
  | succ n ih =>
    obtain ⟨hl, hzb, hsv⟩ := ih (by omega)
    have hn8 : n < 8 := by omega
    have hpn : ¬ |entry (swapStep (elimUpTo aug n) n) n n| < epsPivot := by
      have h := hpiv n hn8
      rw [pivotVal] at h
      exact not_lt.mpr (le_of_lt h)
    have hz : ∀ c, c < n → entry (swapStep (elimUpTo aug n) n) n c = 0 := by
      intro c hc
      exact zeroBelow_swapStep _ _ hl hn8 hzb n c hc hc hn8
    rw [elimUpTo_succ]
    refine ⟨length_elimStep _ _ hl, zeroBelow_elimStep _ _ hl hn8 hzb hpn,
      fun v => (solves_elimStep _ _ v hl hn8 hz).trans (hsv v)⟩

/-- Rows above the working column are frozen for the rest of the
elimination. -/
theorem getD_elimUpTo_frozen (aug : List (List ℚ)) (r k1 k2 : ℕ)
    (hlen : aug.length = 8) (h1 : r < k1) (h2 : k1 ≤ k2) (hk : k2 ≤ 8) :
    (elimUpTo aug k2).getD r [] = (elimUpTo aug k1).getD r [] := by
  induction k2 with
  | zero => omega
  | succ n ih =>
    by_cases hcase : k1 = n + 1
    · rw [hcase]
    · have hn : k1 ≤ n := by omega
      rw [elimUpTo_succ,
        getD_elimStep_lt _ _ _ (by omega) (by omega)
          (length_elimUpTo aug n hlen)]
      exact ih hn (by omega)

/-- The diagonal entry the finished elimination leaves in each column is
the pivot tested at that column. -/
theorem diag_forwardElim (aug : List (List ℚ)) (hlen : aug.length = 8)
    (col : ℕ) (hcol : col < 8)
    (hp : ¬ |entry (swapStep (elimUpTo aug col) col) col col| < epsPivot) :
    entry (forwardElim aug) col col = pivotVal aug col := by
  have hfreeze : (elimUpTo aug 8).getD col [] =
      (elimUpTo aug (col + 1)).getD col [] :=
    getD_elimUpTo_frozen aug col (col + 1) 8 hlen (by omega) (by omega)
      (le_refl 8)
  rw [forwardElim, entry, hfreeze, elimUpTo_succ]
  simp only [elimStep]
  rw [if_neg hp, getD_rangeMap _ _ _ _ hcol, if_neg (lt_irrefl col)]
  rw [pivotVal, entry]

theorem backSubAux_eq_cons (F : List (List ℚ)) (m : ℕ) :
    ∃ x, backSubAux F (m + 1) = x :: backSubAux F m := ⟨_, rfl⟩

theorem length_backSubAux (F : List (List ℚ)) (k : ℕ) :
    (backSubAux F k).length = k := by
  induction k with
  | zero => rfl
  | succ n ih =>
    obtain ⟨x, hx⟩ := backSubAux_eq_cons F n
    rw [hx, List.length_cons, ih]

/-- Each shorter back-substitution list is a suffix of the longer
ones. -/
theorem backSubAux_drop (F : List (List ℚ)) (k d : ℕ) :
    (backSubAux F (k + d)).drop d = backSubAux F k := by
  induction d with
  | zero => rfl
  | succ n ih =>
    obtain ⟨x, hx⟩ := backSubAux_eq_cons F (k + n)
    rw [show k + (n + 1) = (k + n) + 1 from by omega, hx,
      List.drop_succ_cons]
    exact ih

/-- Positions of the shorter list match the full solution list shifted
by the rows not yet solved. -/
theorem backSubAux_getD (F : List (List ℚ)) (k j : ℕ) (hk : k ≤ 8)
    (hj : j < k) :
    (backSubAux F 8).getD (8 - k + j) 0 = (backSubAux F k).getD j 0 := by
  have hd := backSubAux_drop F k (8 - k)
  rw [show k + (8 - k) = 8 from by omega] at hd
  rw [← hd, List.getD_eq_getElem?_getD, List.getD_eq_getElem?_getD,
    List.getElem?_drop]

/-- The newest value the back substitution prepends. -/
theorem backSubAux_head (F : List (List ℚ)) (m : ℕ) :
    (backSubAux F (m + 1)).getD 0 0 =
      if |entry F (8 - (m + 1)) (8 - (m + 1))| > epsPivot
      then (entry F (8 - (m + 1)) 8 - ∑ j ∈ Finset.range m,
        entry F (8 - (m + 1)) ((8 - (m + 1)) + 1 + j) *
          (backSubAux F m).getD j 0) /
        entry F (8 - (m + 1)) (8 - (m + 1))
      else 0 := rfl

/-- On an upper-triangular system whose diagonal entries all pass the
tolerance test, the back substitution solves every row. -/
theorem solves_backSub (F : List (List ℚ))
    (htri : ∀ r c, c < r → r < 8 → entry F r c = 0)
    (hdiag : ∀ r, r < 8 → epsPivot < |entry F r r|) :
    Solves F (fun i => (backSubAux F 8).getD i 0) := by
  intro r hr
  show (∑ j ∈ Finset.range 8,
      entry F r j * (backSubAux F 8).getD j 0) = entry F r 8
  have hd := hdiag r hr
  have hd0 : entry F r r ≠ 0 := by
    intro h0
    rw [h0] at hd
    norm_num [epsPivot] at hd
  set m := 7 - r with hmdef
  have hrow : 8 - (m + 1) = r := by omega
  have hxr : (backSubAux F 8).getD r 0 =
      (entry F r 8 - ∑ j ∈ Finset.range m,
        entry F r (r + 1 + j) * (backSubAux F m).getD j 0) / entry F r r := by
    have h1 := backSubAux_getD F (m + 1) 0 (by omega) (by omega)
    rw [show 8 - (m + 1) + 0 = r from by omega] at h1
    rw [h1, backSubAux_head, hrow, if_pos hd]
  have hxtail : ∀ i, i < m → (backSubAux F 8).getD (r + 1 + i) 0 =
      (backSubAux F m).getD i 0 := by
    intro i hi
    have h1 := backSubAux_getD F m i (by omega) hi
    rw [show 8 - m + i = r + 1 + i from by omega] at h1
    exact h1
  rw [Finset.range_eq_Ico,
    ← Finset.sum_Ico_consecutive _ (Nat.zero_le r) (by omega : r ≤ 8)]
  have hz : (∑ j ∈ Finset.Ico 0 r,
      entry F r j * (backSubAux F 8).getD j 0) = 0 := by
    refine Finset.sum_eq_zero ?_
    intro j hj
    have hj2 := Finset.mem_Ico.mp hj
    rw [htri r j (by omega) hr, zero_mul]
  rw [hz, zero_add, Finset.sum_eq_sum_Ico_succ_bot (by omega : r < 8),
    Finset.sum_Ico_eq_sum_range, show 8 - (r + 1) = m from by omega]
  have hcongr : (∑ i ∈ Finset.range m,
      entry F r (r + 1 + i) * (backSubAux F 8).getD (r + 1 + i) 0) =
      ∑ i ∈ Finset.range m,
        entry F r (r + 1 + i) * (backSubAux F m).getD i 0 := by
    refine Finset.sum_congr rfl ?_
    intro i hi
    rw [hxtail i (Finset.mem_range.mp hi)]
  rw [hcongr, hxr, mul_comm, div_mul_cancel₀ _ hd0]
  ring

/-- With every pivot above the tolerance, the vector computeHomography
returns solves the original DLT system exactly. -/
theorem computeHomography_solves (src dst : Quad ℚ)
    (hpiv : ∀ col, col < 8 → epsPivot < |pivotVal (homAug src dst) col|) :
    Solves (homAug src dst) (computeHomography src dst) := by
  have hlen : (homAug src dst).length = 8 := by simp [homAug]
  obtain ⟨hl, hzb, hsv⟩ :=
    elimUpTo_invariant (homAug src dst) hlen hpiv 8 (le_refl 8)
  have htri : ∀ r c, c < r → r < 8 →
      entry (forwardElim (homAug src dst)) r c = 0 := by
    intro r c hcr hr
    exact hzb r c (by omega) hcr hr
  have hdiag : ∀ r, r < 8 →
      epsPivot < |entry (forwardElim (homAug src dst)) r r| := by
    intro r hr
    have hpn : ¬ |entry (swapStep (elimUpTo (homAug src dst) r) r) r r| <
        epsPivot := by
      have h := hpiv r hr
      rw [pivotVal] at h
      exact not_lt.mpr (le_of_lt h)
    rw [diag_forwardElim _ hlen r hr hpn]
    exact hpiv r hr
  have hsolve := solves_backSub _ htri hdiag
  have hmatch : Solves (forwardElim (homAug src dst))
      (computeHomography src dst) := by
    intro r hr
    have h2 := hsolve r hr
    rw [← h2]
    refine Finset.sum_congr rfl ?_
    intro j hj
    have hj8 := Finset.mem_range.mp hj
    simp only [computeHomography, hj8, if_true]
  exact (hsv _).mp hmatch

/-- The x-equation a solved system satisfies at one correspondence. -/
theorem solves_augRowX (aug : List (List ℚ)) (r : ℕ) (sp d : Point ℚ)
    (H : ℕ → ℚ) (hrow : aug.getD r [] = augRowX sp d) (hr : r < 8)
    (hsol : Solves aug H) :
    d.x * (H 6 * sp.x + H 7 * sp.y + 1) =
      H 0 * sp.x + H 1 * sp.y + H 2 := by
  have h := hsol r hr
  simp only [entry] at h
  rw [hrow] at h
  simp only [augRowX] at h
  rw [Finset.sum_range_succ, Finset.sum_range_succ, Finset.sum_range_succ,
    Finset.sum_range_succ, Finset.sum_range_succ, Finset.sum_range_succ,
    Finset.sum_range_succ, Finset.sum_range_succ, Finset.sum_range_zero]
    at h
  have e0 : ([-sp.x, -sp.y, -1, 0, 0, 0, d.x * sp.x, d.x * sp.y, -d.x] :
      List ℚ).getD 0 0 = -sp.x := rfl
  have e1 : ([-sp.x, -sp.y, -1, 0, 0, 0, d.x * sp.x, d.x * sp.y, -d.x] :
      List ℚ).getD 1 0 = -sp.y := rfl
  have e2 : ([-sp.x, -sp.y, -1, 0, 0, 0, d.x * sp.x, d.x * sp.y, -d.x] :
      List ℚ).getD 2 0 = -1 := rfl
  have e3 : ([-sp.x, -sp.y, -1, 0, 0, 0, d.x * sp.x, d.x * sp.y, -d.x] :
      List ℚ).getD 3 0 = 0 := rfl
  have e4 : ([-sp.x, -sp.y, -1, 0, 0, 0, d.x * sp.x, d.x * sp.y, -d.x] :
      List ℚ).getD 4 0 = 0 := rfl
  have e5 : ([-sp.x, -sp.y, -1, 0, 0, 0, d.x * sp.x, d.x * sp.y, -d.x] :
      List ℚ).getD 5 0 = 0 := rfl
  have e6 : ([-sp.x, -sp.y, -1, 0, 0, 0, d.x * sp.x, d.x * sp.y, -d.x] :
      List ℚ).getD 6 0 = d.x * sp.x := rfl
  have e7 : ([-sp.x, -sp.y, -1, 0, 0, 0, d.x * sp.x, d.x * sp.y, -d.x] :
      List ℚ).getD 7 0 = d.x * sp.y := rfl
  have e8 : ([-sp.x, -sp.y, -1, 0, 0, 0, d.x * sp.x, d.x * sp.y, -d.x] :
      List ℚ).getD 8 0 = -d.x := rfl
  rw [e0, e1, e2, e3, e4, e5, e6, e7, e8] at h
  linear_combination h

/-- The y-equation a solved system satisfies at one correspondence. -/
theorem solves_augRowY (aug : List (List ℚ)) (r : ℕ) (sp d : Point ℚ)
    (H : ℕ → ℚ) (hrow : aug.getD r [] = augRowY sp d) (hr : r < 8)
    (hsol : Solves aug H) :
    d.y * (H 6 * sp.x + H 7 * sp.y + 1) =
      H 3 * sp.x + H 4 * sp.y + H 5 := by
  have h := hsol r hr
  simp only [entry] at h
  rw [hrow] at h
  simp only [augRowY] at h
  rw [Finset.sum_range_succ, Finset.sum_range_succ, Finset.sum_range_succ,
    Finset.sum_range_succ, Finset.sum_range_succ, Finset.sum_range_succ,
    Finset.sum_range_succ, Finset.sum_range_succ, Finset.sum_range_zero]
    at h
  have e0 : ([0, 0, 0, -sp.x, -sp.y, -1, d.y * sp.x, d.y * sp.y, -d.y] :
      List ℚ).getD 0 0 = 0 := rfl
  have e1 : ([0, 0, 0, -sp.x, -sp.y, -1, d.y * sp.x, d.y * sp.y, -d.y] :
      List ℚ).getD 1 0 = 0 := rfl
  have e2 : ([0, 0, 0, -sp.x, -sp.y, -1, d.y * sp.x, d.y * sp.y, -d.y] :
      List ℚ).getD 2 0 = 0 := rfl
  have e3 : ([0, 0, 0, -sp.x, -sp.y, -1, d.y * sp.x, d.y * sp.y, -d.y] :
      List ℚ).getD 3 0 = -sp.x := rfl
  have e4 : ([0, 0, 0, -sp.x, -sp.y, -1, d.y * sp.x, d.y * sp.y, -d.y] :
      List ℚ).getD 4 0 = -sp.y := rfl
  have e5 : ([0, 0, 0, -sp.x, -sp.y, -1, d.y * sp.x, d.y * sp.y, -d.y] :
      List ℚ).getD 5 0 = -1 := rfl
  have e6 : ([0, 0, 0, -sp.x, -sp.y, -1, d.y * sp.x, d.y * sp.y, -d.y] :
      List ℚ).getD 6 0 = d.y * sp.x := rfl
  have e7 : ([0, 0, 0, -sp.x, -sp.y, -1, d.y * sp.x, d.y * sp.y, -d.y] :
      List ℚ).getD 7 0 = d.y * sp.y := rfl
  have e8 : ([0, 0, 0, -sp.x, -sp.y, -1, d.y * sp.x, d.y * sp.y, -d.y] :
      List ℚ).getD 8 0 = -d.y := rfl
  rw [e0, e1, e2, e3, e4, e5, e6, e7, e8] at h
  linear_combination h

/-- Claim C1: for a 4-point correspondence that is non-degenerate for the
solver, meaning every partial pivot of the forward elimination exceeds
the 1e-12 tolerance and no projective denominator at a source corner
falls under the 1e-12 guard of apply, the homography computeHomography
returns maps each source corner back onto its destination corner to
within 1e-6 in each coordinate; over exact arithmetic the round trip is
in fact exact, so the 1e-6 bound of the specification holds. -/
theorem computeHomography_exact (src dst : Quad ℚ)
    (hpiv : ∀ col, col < 8 → epsPivot < |pivotVal (homAug src dst) col|)
    (hden : ∀ i : Fin 4, ¬ |homDenom src dst i| < 1 / 10 ^ 12) :
    ∀ i : Fin 4,
      |(applyHomography (computeHomography src dst) (src.pt i).x
          (src.pt i).y).x - (dst.pt i).x| ≤ 1 / 10 ^ 6 ∧
      |(applyHomography (computeHomography src dst) (src.pt i).x
          (src.pt i).y).y - (dst.pt i).y| ≤ 1 / 10 ^ 6 := by
  have hsol := computeHomography_solves src dst hpiv
  set H := computeHomography src dst with hHdef
  have h8 : H 8 = 1 := rfl
  have key : ∀ (rx ry : ℕ) (sp d : Point ℚ),
      (homAug src dst).getD rx [] = augRowX sp d →
      (homAug src dst).getD ry [] = augRowY sp d →
      rx < 8 → ry < 8 →
      ¬ |H 6 * sp.x + H 7 * sp.y + H 8| < 1 / 10 ^ 12 →
      |(applyHomography H sp.x sp.y).x - d.x| ≤ 1 / 10 ^ 6 ∧
      |(applyHomography H sp.x sp.y).y - d.y| ≤ 1 / 10 ^ 6 := by
    intro rx ry sp d hrx hry hrx8 hry8 hd
    have hx := solves_augRowX _ rx sp d H hrx hrx8 hsol
    have hy := solves_augRowY _ ry sp d H hry hry8 hsol
    have hDne : H 6 * sp.x + H 7 * sp.y + H 8 ≠ 0 := by
      intro h0
      apply hd
      rw [h0]
      norm_num
    rw [h8] at hDne
    rw [applyHomography, if_neg hd]
    dsimp only
    rw [h8]
    constructor
    · have hval : (H 0 * sp.x + H 1 * sp.y + H 2) /
          (H 6 * sp.x + H 7 * sp.y + 1) = d.x := by
        rw [div_eq_iff hDne]
        linear_combination -hx
      rw [hval, sub_self, abs_zero]
      norm_num
    · have hval : (H 3 * sp.x + H 4 * sp.y + H 5) /
          (H 6 * sp.x + H 7 * sp.y + 1) = d.y := by
        rw [div_eq_iff hDne]
        linear_combination -hy
      rw [hval, sub_self, abs_zero]
      norm_num
  intro i
  fin_cases i
  · exact key 0 1 src.p0 dst.p0 rfl rfl (by norm_num) (by norm_num) (hden 0)
  · exact key 2 3 src.p1 dst.p1 rfl rfl (by norm_num) (by norm_num) (hden 1)
  · exact key 4 5 src.p2 dst.p2 rfl rfl (by norm_num) (by norm_num) (hden 2)
  · exact key 6 7 src.p3 dst.p3 rfl rfl (by norm_num) (by norm_num) (hden 3)

/-- A concrete non-degenerate correspondence: the unit square mapped to a
generic convex quadrilateral. -/
def wSrc : Quad ℚ := ⟨⟨0, 0⟩, ⟨1, 0⟩, ⟨1, 1⟩, ⟨0, 1⟩⟩

/-- The destination quadrilateral of the concrete correspondence. -/
def wDst : Quad ℚ := ⟨⟨1, 1⟩, ⟨5, 2⟩, ⟨6, 9⟩, ⟨0, 7⟩⟩

/-- Witness for claim C1 at the concrete correspondence: all eight pivots
exceed the tolerance, no denominator guard fires, and the solved
homography reproduces every destination corner within 1e-6. -/
theorem computeHomography_exact_witness :
    (∀ col, col < 8 → epsPivot < |pivotVal (homAug wSrc wDst) col|) ∧
    (∀ i : Fin 4, ¬ |homDenom wSrc wDst i| < 1 / 10 ^ 12) ∧
    ∀ i : Fin 4,
      |(applyHomography (computeHomography wSrc wDst) ((wSrc.pt i)).x
          ((wSrc.pt i)).y).x - ((wDst.pt i)).x| ≤ 1 / 10 ^ 6 ∧
      |(applyHomography (computeHomography wSrc wDst) ((wSrc.pt i)).x
          ((wSrc.pt i)).y).y - ((wDst.pt i)).y| ≤ 1 / 10 ^ 6 := by
  have hp : ∀ col, col < 8 →
      epsPivot < |pivotVal (homAug wSrc wDst) col| := by decide
  have hd : ∀ i : Fin 4, ¬ |homDenom wSrc wDst i| < 1 / 10 ^ 12 := by decide
  exact ⟨hp, hd, computeHomography_exact wSrc wDst hp hd⟩

end CardV2
